import Mathlib

/-!
Shallow embedding of the thola device-class resolution and property-aggregation
engine, translated from
`core/communicator/device_class_group_properties.go` and
`core/communicator/timos-sas.go`.

Machine integers of the source (`uint64`) are modelled as `Nat` with an
explicit `% 2 ^ 64` at the one multiplication where overflow can matter.
Fallible Go functions returning `(T, error)` are modelled as `Except ErrKind T`.
-/

namespace Thola

/-- Modelled from the spec: the `tholaerr` package is not part of the given
source tree. The spec states a three-kind error taxonomy (NotImplemented,
NotFound, hard failure) plus a distinct component-level not-found kind; we
model error kinds as a closed sum. `other` carries a message and stands for
every hard failure (transport errors, decode errors, ...). `panicked` stands
for a Go runtime panic (index out of range, nil dereference), which aborts
the whole call like a hard failure does. -/
inductive ErrKind where
  | notImplemented
  | notFound
  | componentNotFound
  | other (msg : String)
  | panicked (msg : String)
deriving DecidableEq, Repr

/-- Modelled from the spec: `tholaerr.IsNotImplementedError` holds exactly for
the NotImplemented kind. -/
def isNotImplementedErr : ErrKind → Bool
  | .notImplemented => true
  | _ => false

/-- Modelled from the spec: `tholaerr.IsNotFoundError` holds exactly for the
property-level NotFound kind (component-level not-found is a distinct kind). -/
def isNotFoundErr : ErrKind → Bool
  | .notFound => true
  | _ => false

/-- Result of one resolution step (`adapterFunc` call): a value or an error. -/
abbrev StepResult (α : Type) := Except ErrKind α

/-- Embeds `networkDeviceCommunicator.executeWithRecursion`
(device_class_group_properties.go, second part, lines 291-327). `fCom` and
`fSub` are `none` when the corresponding function pointer is nil. Each
`adapterFunc` is modelled by the result it would return. -/
def executeWithRecursion {α : Type} (fClass : StepResult α)
    (fCom fSub : Option (StepResult α)) : StepResult α :=
  match fClass with
  | .ok v => .ok v
  | .error e1 =>
    if !isNotImplementedErr e1 then .error e1
    else
      match fCom with
      | some (.ok v) => .ok v
      | some (.error e2) =>
        if !isNotImplementedErr e2 then .error e2
        else executeWithRecursionTail e1 e2 fSub
      | none => executeWithRecursionTail e1 .notImplemented fSub

where
  /-- The part of `executeWithRecursion` from the `fSub` block on, with the
  class-step and override-step errors `e1` and `e2` in scope. -/
  executeWithRecursionTail (e1 e2 : ErrKind) :
      Option (StepResult α) → StepResult α
  | some (.ok v) => .ok v
  | some (.error e3) =>
    if !isNotFoundErr e3 then .error e3
    else executeWithRecursionFinal e1 e2 e3
  | none => executeWithRecursionFinal e1 e2 .notImplemented

  /-- The final two statements of `executeWithRecursion`: collapse to
  NotImplemented when every step was NotImplemented, else to NotFound. -/
  executeWithRecursionFinal (e1 e2 e3 : ErrKind) : StepResult α :=
    if isNotImplementedErr e1 && isNotImplementedErr e2 && isNotImplementedErr e3 then
      .error .notImplemented
    else
      .error .notFound

/-! ## String helpers (Go standard library functions used by the source) -/

/-- `strings.Split` with a one-character separator, on character lists:
splits around every occurrence of the separator, keeping empty fragments. -/
def splitOnChar (sep : Char) : List Char → List (List Char)
  | [] => [[]]
  | c :: rest =>
    let r := splitOnChar sep rest
    if c = sep then [] :: r
    else
      match r with
      | [] => [[c]]
      | g :: gs => (c :: g) :: gs

/-- `strings.Split(s, ".")`. -/
def goSplitDots (s : String) : List String :=
  (splitOnChar '.' s.data).map fun l => String.mk l

/-- `oid[len(oid)-1]` after `strings.Split(oid, ".")`: the trailing path
component (the split result is never empty, so the default is unreachable). -/
def lastComponent (s : String) : String :=
  (goSplitDots s).getLastD ""

/-- `strings.TrimPrefix(s, pre)`: drop `pre` when it is a prefix, else return
`s` unchanged. -/
def goTrimPre (s pre : String) : String :=
  if pre.data.isPrefixOf s.data then String.mk (s.data.drop pre.data.length) else s

def isDigitChar (c : Char) : Bool := 48 ≤ c.toNat && c.toNat ≤ 57

def digitsToNat (l : List Char) : Nat := l.foldl (fun a c => a * 10 + (c.toNat - 48)) 0

/-- `strconv.Atoi` on a 64-bit platform: optional sign, decimal digits only,
error (`none`) on empty input, non-digits, or values outside the `int64`
range. -/
def goAtoi (s : String) : Option Int :=
  match s.data with
  | [] => none
  | c :: rest =>
    let signDrop : Bool × List Char :=
      if c = '-' then (true, rest)
      else if c = '+' then (false, rest)
      else (false, c :: rest)
    match signDrop with
    | (neg, digits) =>
      if digits = [] then none
      else if digits.all isDigitChar then
        let n := digitsToNat digits
        if neg then
          if n ≤ 2 ^ 63 then some (-(n : Int)) else none
        else
          if n ≤ 2 ^ 63 - 1 then some (n : Int) else none
      else none

/-! ## Association lists standing for Go maps

Go maps are modelled as association lists built by upsert (so keys are unique
by construction); map reads are `lookupK`. Go map iteration order is
unspecified, so every claim below is stated through lookups or through
order-insensitive properties. -/

def lookupK {κ β : Type} [DecidableEq κ] : List (κ × β) → κ → Option β
  | [], _ => none
  | (k', v) :: rest, k => if k' = k then some v else lookupK rest k

def upsertK {κ β : Type} [DecidableEq κ] : List (κ × β) → κ → β → List (κ × β)
  | [], k, v => [(k, v)]
  | (k', v') :: rest, k, v =>
    if k' = k then (k, v) :: rest else (k', v') :: upsertK rest k v

/-! ## SNMP environment and the leaf reader -/

deriving instance DecidableEq for Except

/-- One response of an SNMP walk. `oid` is `response.GetOID()`; `raw` is the
result of `response.GetValueBySNMPGetConfiguration(d.SNMPGetConfiguration)`
for the leaf under consideration (the `network` package is an external
collaborator; per the spec a walk yields (path, rawValue) pairs and the
per-response extraction can fail). -/
structure SNMPResponse where
  oid : String
  raw : Except ErrKind String
deriving DecidableEq

/-- Embeds `deviceClassOID` (lines 123-127): one readable OID together with
its operator pipeline. The `propertyOperators` value is an external
collaborator (spec: the operator pipeline applies a configured chain of
transforms); it is modelled as an identifier interpreted by the environment,
so that trees and heaps of leaves keep decidable equality. -/
structure deviceClassOID where
  oid : String
  operators : Nat
deriving DecidableEq

/-- The external collaborators of one read: SNMP connection presence, the
walk, the operator pipeline interpretation and the single-value get. -/
structure SNMPEnv where
  hasConnection : Bool
  walk : String → Except ErrKind (List SNMPResponse)
  applyOps : Nat → String → Except ErrKind String
  snmpGet : String → Except ErrKind Nat

/-- The response loop of `deviceClassOID.readOID` (lines 148-168): for every
response, extract the raw value (failure aborts), skip empty values, run the
operator pipeline (failure aborts), parse the trailing path component as the
row index (failure aborts), and store the normalized value under that index. -/
def processResponses (env : SNMPEnv) (d : deviceClassOID) :
    List SNMPResponse → List (Int × String) → Except ErrKind (List (Int × String))
  | [], result => .ok result
  | response :: rest, result =>
    match response.raw with
    | .error e => .error e
    | .ok res =>
      if res ≠ "" then
        match env.applyOps d.operators res with
        | .error e => .error e
        | .ok resNormalized =>
          match goAtoi (lastComponent response.oid) with
          | none => .error (.other "index is not an integer")
          | some index =>
            processResponses env d rest (upsertK result index resNormalized)
      else
        processResponses env d rest result

/-- Embeds `deviceClassOID.readOID` (lines 129-170). Error wrapping
(`errors.Wrap`) preserves the error kind, so wrapped errors are modelled by
the error itself; the two walk-error branches (not-found passed through,
other failures wrapped) therefore collapse to one. -/
def deviceClassOID.readOID (env : SNMPEnv) (d : deviceClassOID) :
    Except ErrKind (List (Int × String)) :=
  if !env.hasConnection then .error (.other "snmp client is empty")
  else
    match env.walk d.oid with
    | .error e => .error e
    | .ok snmpResponse => processResponses env d snmpResponse []

/-! ## The query-definition tree and its recursive reader -/

/-- A Go `interface{}` value appearing in read results: either a normalized
scalar (`value.Value`, a string wrapper) produced by a leaf, or a
label-to-value record (`map[string]interface{}`) produced by a nested tree. -/
inductive GVal where
  | str (s : String)
  | record (fields : List (String × GVal))

/-- Embeds the `oidReader` interface and the recursive `deviceClassOIDs` data
structure (lines 67-72): a node is a single readable OID or another
label-keyed tree. -/
inductive OIDReader where
  | leaf (d : deviceClassOID)
  | tree (children : List (String × OIDReader))

/-- `deviceClassOIDs` is the label-keyed map of child readers. -/
abbrev deviceClassOIDs := List (String × OIDReader)

/-- The inner loop of `deviceClassOIDs.readOID` (lines 85-91): store every
row of one child read under its row index and the child's label, creating the
row's record when the index was not known before. -/
def addChild (label : String) :
    List (Int × GVal) → List (Int × List (String × GVal)) →
    List (Int × List (String × GVal))
  | [], result => result
  | (ifIndex, v) :: restRes, result =>
    addChild label restRes
      (upsertK result ifIndex (upsertK ((lookupK result ifIndex).getD []) label v))

mutual

/-- Embeds `oidReader.readOID` dispatch: a leaf reads its OID
(`deviceClassOID.readOID`), a tree reads all children
(`deviceClassOIDs.readOID`, lines 74-100). -/
def readOIDNode (env : SNMPEnv) : OIDReader → Except ErrKind (List (Int × GVal))
  | .leaf d =>
    match deviceClassOID.readOID env d with
    | .error e => .error e
    | .ok res => .ok (res.map fun p => (p.1, GVal.str p.2))
  | .tree children => readChildren env children []

/-- The loop of `deviceClassOIDs.readOID` (lines 76-92) followed by the final
repacking (lines 94-97): children failing with a NotFound-kind error are
skipped, any other child failure aborts with it (wrapping preserves the
kind), and successful child rows are grouped by row index. -/
def readChildren (env : SNMPEnv) :
    deviceClassOIDs → List (Int × List (String × GVal)) →
    Except ErrKind (List (Int × GVal))
  | [], result => .ok (result.map fun p => (p.1, GVal.record p.2))
  | (label, reader) :: rest, result =>
    match readOIDNode env reader with
    | .error e =>
      if isNotFoundErr e then readChildren env rest result
      else .error e
    | .ok res => readChildren env rest (addChild label res result)

end

/-- Embeds `deviceClassOIDs.readOID` (lines 74-100). -/
def deviceClassOIDs.readOID (env : SNMPEnv) (d : deviceClassOIDs) :
    Except ErrKind (List (Int × GVal)) :=
  readChildren env d []

/-- Embeds `networkDeviceCommunicator.GetVendor` (lines 759-772): run the
three-step chain, then convert a successful empty string into NotFound. -/
def GetVendor (fClass : StepResult String) (fCom fSub : Option (StepResult String)) :
    StepResult String :=
  match executeWithRecursion fClass fCom fSub with
  | .error e => .error e
  | .ok s => if s = "" then .error .notFound else .ok s

/-- Embeds `networkDeviceCommunicator.GetModel` (lines 774-787). -/
def GetModel (fClass : StepResult String) (fCom fSub : Option (StepResult String)) :
    StepResult String :=
  match executeWithRecursion fClass fCom fSub with
  | .error e => .error e
  | .ok s => if s = "" then .error .notFound else .ok s

/-- Embeds `networkDeviceCommunicator.GetModelSeries` (lines 789-802). -/
def GetModelSeries (fClass : StepResult String) (fCom fSub : Option (StepResult String)) :
    StepResult String :=
  match executeWithRecursion fClass fCom fSub with
  | .error e => .error e
  | .ok s => if s = "" then .error .notFound else .ok s

/-- Embeds `networkDeviceCommunicator.GetSerialNumber` (lines 804-817). -/
def GetSerialNumber (fClass : StepResult String) (fCom fSub : Option (StepResult String)) :
    StepResult String :=
  match executeWithRecursion fClass fCom fSub with
  | .error e => .error e
  | .ok s => if s = "" then .error .notFound else .ok s

/-- Embeds `networkDeviceCommunicator.GetOSVersion` (lines 819-832). -/
def GetOSVersion (fClass : StepResult String) (fCom fSub : Option (StepResult String)) :
    StepResult String :=
  match executeWithRecursion fClass fCom fSub with
  | .error e => .error e
  | .ok s => if s = "" then .error .notFound else .ok s

/-- C1 counterexample: the claim says a NotFound outcome from the class step
leads to the override step being attempted; in the code, a NotFound from the
class step is returned immediately, so with class = NotFound and an override
step that would succeed with "v", the chain returns NotFound instead of "v". -/
theorem executeWithRecursion_notFound_class_stops :
    executeWithRecursion (α := String) (.error .notFound) (some (.ok "v")) none
      = .error .notFound
    ∧ executeWithRecursion (α := String) (.error .notFound) (some (.ok "v")) none
      ≠ .ok "v" := by
  exact ⟨rfl, fun h => Except.noConfusion h⟩

/-- C1 (amended): a NotFound error from the class step, and likewise from the
override step, is propagated immediately and never leads to the next step
being attempted; only a NotImplemented error from those steps lets the chain
continue (a successful override after a NotImplemented class step wins). -/
theorem executeWithRecursion_notFound_short_circuit (α : Type)
    (fCom fSub fSub' : Option (StepResult α)) (v : α) :
    executeWithRecursion (.error .notFound) fCom fSub = .error .notFound
    ∧ executeWithRecursion (.error .notImplemented) (some (.error .notFound)) fSub'
        = .error .notFound
    ∧ executeWithRecursion (.error .notImplemented) (some (.ok v)) fSub = .ok v := by
  refine ⟨rfl, rfl, rfl⟩

/-- C2: a hard failure (neither NotImplemented nor NotFound) from the class
step propagates immediately and is never retried against the override or
inherited steps; and when the class and override steps are NotImplemented and
the inherited step is NotImplemented as well (or absent), the final outcome
is a NotImplemented error. -/
theorem executeWithRecursion_hard_failure_and_all_notImplemented (α : Type)
    (e : ErrKind) (h1 : isNotImplementedErr e = false)
    (fCom fSub : Option (StepResult α)) :
    executeWithRecursion (.error e) fCom fSub = .error e
    ∧ executeWithRecursion (α := α) (.error .notImplemented)
        (some (.error .notImplemented)) (some (.error .notImplemented))
        = .error .notImplemented
    ∧ executeWithRecursion (α := α) (.error .notImplemented)
        (some (.error .notImplemented)) none = .error .notImplemented
    ∧ executeWithRecursion (α := α) (.error .notImplemented) none
        (some (.error .notImplemented)) = .error .notImplemented
    ∧ executeWithRecursion (α := α) (.error .notImplemented) none none
        = .error .notImplemented := by
  refine ⟨?_, rfl, rfl, rfl, rfl⟩
  simp [executeWithRecursion, h1]

/-- C2 witness: a transport failure at the class step is returned unchanged
even when the override and inherited steps would succeed. -/
theorem executeWithRecursion_hard_failure_witness :
    executeWithRecursion (α := String) (.error (.other "transport failure"))
      (some (.ok "a")) (some (.ok "b")) = .error (.other "transport failure") :=
  (executeWithRecursion_hard_failure_and_all_notImplemented String
    (.other "transport failure") rfl (some (.ok "a")) (some (.ok "b"))).1

/-- C8: whenever the three-step resolution chain succeeds with the empty
string, each of the five string-valued identification getters (vendor, model,
model series, serial number, OS version) returns a NotFound error instead,
and none of them ever returns the empty string as a successful value. -/
theorem stringGetters_empty_string_never_ok
    (fClass : StepResult String) (fCom fSub : Option (StepResult String)) :
    (executeWithRecursion fClass fCom fSub = .ok "" →
      GetVendor fClass fCom fSub = .error .notFound
      ∧ GetModel fClass fCom fSub = .error .notFound
      ∧ GetModelSeries fClass fCom fSub = .error .notFound
      ∧ GetSerialNumber fClass fCom fSub = .error .notFound
      ∧ GetOSVersion fClass fCom fSub = .error .notFound)
    ∧ GetVendor fClass fCom fSub ≠ .ok ""
    ∧ GetModel fClass fCom fSub ≠ .ok ""
    ∧ GetModelSeries fClass fCom fSub ≠ .ok ""
    ∧ GetSerialNumber fClass fCom fSub ≠ .ok ""
    ∧ GetOSVersion fClass fCom fSub ≠ .ok "" := by
  constructor
  · intro h
    refine ⟨?_, ?_, ?_, ?_, ?_⟩ <;>
      simp only [GetVendor, GetModel, GetModelSeries, GetSerialNumber, GetOSVersion, h] <;> rfl
  · refine ⟨?_, ?_, ?_, ?_, ?_⟩ <;>
      · simp only [GetVendor, GetModel, GetModelSeries, GetSerialNumber, GetOSVersion]
        rcases hr : executeWithRecursion fClass fCom fSub with e | s
        · exact fun h => Except.noConfusion h
        · by_cases hs : s = "" <;> simp [hs]

/-- C8 witness: with a class step that succeeds with the empty string, all
five getters return NotFound, and the chain indeed succeeded with "". -/
theorem stringGetters_empty_string_never_ok_witness :
    executeWithRecursion (α := String) (.ok "") none none = .ok ""
    ∧ GetVendor (.ok "") none none = .error .notFound := by
  refine ⟨rfl, ?_⟩
  exact ((stringGetters_empty_string_never_ok (.ok "") none none).1 rfl).1

/-! ## Lemmas about association-list upserts and the leaf response loop -/

theorem lookupK_upsertK_self {κ β : Type} [DecidableEq κ]
    (l : List (κ × β)) (k : κ) (v : β) : lookupK (upsertK l k v) k = some v := by
  induction l with
  | nil => simp [upsertK, lookupK]
  | cons p rest ih =>
    obtain ⟨a, b⟩ := p
    by_cases hp : a = k
    · subst hp; simp [upsertK, lookupK]
    · simp [upsertK, lookupK, hp, ih]

theorem lookupK_upsertK_ne {κ β : Type} [DecidableEq κ]
    (l : List (κ × β)) (k k' : κ) (v : β) (h : k' ≠ k) :
    lookupK (upsertK l k v) k' = lookupK l k' := by
  have hkk : ¬ k = k' := fun hh => h hh.symm
  induction l with
  | nil => simp [upsertK, lookupK, hkk]
  | cons p rest ih =>
    obtain ⟨a, b⟩ := p
    by_cases hp : a = k
    · subst hp
      simp [upsertK, lookupK, hkk]
    · by_cases hp' : a = k'
      · simp [upsertK, lookupK, hp, hp', h]
      · simp [upsertK, lookupK, hp, hp', ih]

theorem processResponses_ok_persist (env : SNMPEnv) (d : deviceClassOID)
    (responses : List SNMPResponse) :
    ∀ (acc m : List (Int × String)) (k : Int),
      processResponses env d responses acc = .ok m →
      (lookupK acc k).isSome = true → (lookupK m k).isSome = true := by
  induction responses with
  | nil =>
    intro acc m k h hk
    simp [processResponses] at h
    exact h ▸ hk
  | cons response rest ih =>
    intro acc m k h hk
    simp only [processResponses] at h
    cases hr : response.raw with
    | error e => rw [hr] at h; exact absurd h (by simp)
    | ok res =>
      rw [hr] at h
      by_cases hres : res = ""
      · simp only [hres, ne_eq, not_true_eq_false, if_false] at h
        exact ih acc m k h hk
      · simp only [ne_eq, hres, not_false_eq_true, if_true] at h
        cases ha : env.applyOps d.operators res with
        | error e => rw [ha] at h; exact absurd h (by simp)
        | ok v =>
          rw [ha] at h
          cases hg : goAtoi (lastComponent response.oid) with
          | none => rw [hg] at h; exact absurd h (by simp)
          | some idx =>
            rw [hg] at h
            refine ih _ m k h ?_
            by_cases hik : idx = k
            · subst hik; rw [lookupK_upsertK_self]; rfl
            · rw [lookupK_upsertK_ne _ _ _ _ (fun hh => hik hh.symm)]; exact hk

theorem processResponses_error_of_badRow (env : SNMPEnv) (d : deviceClassOID)
    (responses : List SNMPResponse) :
    ∀ (acc : List (Int × String)) (r : SNMPResponse) (s : String),
      r ∈ responses → r.raw = .ok s → s ≠ "" →
      ((∃ e, env.applyOps d.operators s = .error e)
        ∨ goAtoi (lastComponent r.oid) = none) →
      ∃ e', processResponses env d responses acc = .error e' := by
  induction responses with
  | nil => intro acc r s hmem; exact absurd hmem (List.not_mem_nil r)
  | cons response rest ih =>
    intro acc r s hmem hraw hs hbad
    simp only [processResponses]
    cases hr : response.raw with
    | error e => exact ⟨e, rfl⟩
    | ok res =>
      by_cases hres : res = ""
      · simp only [hres, ne_eq, not_true_eq_false, if_false]
        rcases List.mem_cons.mp hmem with heq | hmem'
        · subst heq
          rw [hraw] at hr
          cases hr
          exact absurd hres hs
        · exact ih acc r s hmem' hraw hs hbad
      · simp only [ne_eq, hres, not_false_eq_true, if_true]
        rcases List.mem_cons.mp hmem with heq | hmem'
        · subst heq
          rw [hraw] at hr
          cases hr
          rcases hbad with ⟨e, he⟩ | hg
          · rw [he]; exact ⟨e, rfl⟩
          · cases ha : env.applyOps d.operators s with
            | error e => exact ⟨e, rfl⟩
            | ok v => rw [hg]; exact ⟨_, rfl⟩
        · cases ha : env.applyOps d.operators res with
          | error e => exact ⟨e, rfl⟩
          | ok v =>
            cases hg : goAtoi (lastComponent response.oid) with
            | none => exact ⟨_, rfl⟩
            | some idx => exact ih _ r s hmem' hraw hs hbad

theorem processResponses_ok_of_mem (env : SNMPEnv) (d : deviceClassOID)
    (responses : List SNMPResponse) :
    ∀ (acc m : List (Int × String)) (r : SNMPResponse) (s : String),
      processResponses env d responses acc = .ok m →
      r ∈ responses → r.raw = .ok s → s ≠ "" →
      ∃ v idx, env.applyOps d.operators s = .ok v
        ∧ goAtoi (lastComponent r.oid) = some idx
        ∧ (lookupK m idx).isSome = true := by
  induction responses with
  | nil => intro acc m r s _ hmem; exact absurd hmem (List.not_mem_nil r)
  | cons response rest ih =>
    intro acc m r s h hmem hraw hs
    simp only [processResponses] at h
    cases hr : response.raw with
    | error e => rw [hr] at h; exact absurd h (by simp)
    | ok res =>
      rw [hr] at h
      by_cases hres : res = ""
      · simp only [hres, ne_eq, not_true_eq_false, if_false] at h
        rcases List.mem_cons.mp hmem with heq | hmem'
        · subst heq; rw [hraw] at hr; cases hr; exact absurd hres hs
        · exact ih acc m r s h hmem' hraw hs
      · simp only [ne_eq, hres, not_false_eq_true, if_true] at h
        cases ha : env.applyOps d.operators res with
        | error e => rw [ha] at h; exact absurd h (by simp)
        | ok v =>
          rw [ha] at h
          cases hg : goAtoi (lastComponent response.oid) with
          | none => rw [hg] at h; exact absurd h (by simp)
          | some idx =>
            rw [hg] at h
            rcases List.mem_cons.mp hmem with heq | hmem'
            · subst heq
              rw [hraw] at hr
              cases hr
              refine ⟨v, idx, ha, hg, ?_⟩
              refine processResponses_ok_persist env d rest _ m idx h ?_
              rw [lookupK_upsertK_self]; rfl
            · exact ih _ m r s h hmem' hraw hs

/-- Input for the C3 counterexample: the walk returns one response whose
extracted value is the empty string and whose trailing path component is not
an integer; the operator pipeline is the identity. -/
def envC3 : SNMPEnv :=
  { hasConnection := true
    walk := fun _ => .ok [{ oid := ".1.x", raw := .ok "" }]
    applyOps := fun _ s => .ok s
    snmpGet := fun _ => .error .notFound }

def dC3 : deviceClassOID := { oid := ".1", operators := 0 }

/-- Input for the C3 witness: one response with a non-empty value, operator
pipeline failing on it. -/
def envC3fail : SNMPEnv :=
  { hasConnection := true
    walk := fun _ => .ok [{ oid := ".1.5", raw := .ok "val" }]
    applyOps := fun _ _ => .error (.other "operator failed")
    snmpGet := fun _ => .error .notFound }

/-- C3 counterexample: a response whose extracted value is empty is skipped
before the trailing path component is parsed, so a read whose only response
has the unparseable trailing component "x" succeeds (with an empty result)
instead of failing as the claim states. -/
theorem readOID_empty_value_skips_index_parse :
    envC3.walk dC3.oid = .ok [{ oid := ".1.x", raw := .ok "" }]
    ∧ lastComponent ".1.x" = "x"
    ∧ goAtoi "x" = none
    ∧ deviceClassOID.readOID envC3 dC3 = .ok [] := by
  exact ⟨rfl, rfl, rfl, rfl⟩

/-- C3 (amended): restricted to responses whose extracted value is non-empty
(empty-valued responses are skipped): an operator-pipeline failure on any such
row aborts the whole leaf read, an unparseable trailing path component on any
such row aborts the whole leaf read, and when the read succeeds every such
row was normalized, indexed, and is present in the result under its index
(no partial results, no silently dropped rows). -/
theorem readOID_row_failures_abort (env : SNMPEnv) (d : deviceClassOID)
    (responses : List SNMPResponse)
    (hc : env.hasConnection = true) (hw : env.walk d.oid = .ok responses) :
    (∀ r s e, r ∈ responses → r.raw = .ok s → s ≠ "" →
      env.applyOps d.operators s = .error e →
      ∃ e', deviceClassOID.readOID env d = .error e')
    ∧ (∀ r s, r ∈ responses → r.raw = .ok s → s ≠ "" →
      goAtoi (lastComponent r.oid) = none →
      ∃ e', deviceClassOID.readOID env d = .error e')
    ∧ (∀ m r s, deviceClassOID.readOID env d = .ok m → r ∈ responses →
      r.raw = .ok s → s ≠ "" →
      ∃ v idx, env.applyOps d.operators s = .ok v
        ∧ goAtoi (lastComponent r.oid) = some idx
        ∧ (lookupK m idx).isSome = true) := by
  have hread : deviceClassOID.readOID env d = processResponses env d responses [] := by
    simp [deviceClassOID.readOID, hc, hw]
  refine ⟨?_, ?_, ?_⟩
  · intro r s e hmem hraw hs ha
    rw [hread]
    exact processResponses_error_of_badRow env d responses [] r s hmem hraw hs (Or.inl ⟨e, ha⟩)
  · intro r s hmem hraw hs hg
    rw [hread]
    exact processResponses_error_of_badRow env d responses [] r s hmem hraw hs (Or.inr hg)
  · intro m r s hok hmem hraw hs
    rw [hread] at hok
    exact processResponses_ok_of_mem env d responses [] m r s hok hmem hraw hs

/-- C3 witness: at the concrete failing input, the amended theorem yields an
aborted read; the read indeed evaluates to an error. -/
theorem readOID_row_failures_abort_witness :
    ∃ e', deviceClassOID.readOID envC3fail dC3 = .error e' := by
  obtain ⟨h1, _, _⟩ := readOID_row_failures_abort envC3fail dC3
    [{ oid := ".1.5", raw := .ok "val" }] rfl rfl
  exact h1 { oid := ".1.5", raw := .ok "val" } "val" (.other "operator failed")
    (List.mem_singleton.mpr rfl) rfl (by decide) rfl

/-! ## Lemmas for the nested tree read (C5) -/

/-- The value stored for label `l` in the grouped row `i` of an accumulator
map (`map[int]map[string]interface{}`). -/
def accVal (result : List (Int × List (String × GVal))) (i : Int) (l : String) :
    Option GVal :=
  (lookupK result i).bind fun r => lookupK r l

/-- The value stored for label `l` in row `i` of a final tree-read result. -/
def rowVal (m : List (Int × GVal)) (i : Int) (l : String) : Option GVal :=
  match lookupK m i with
  | some (GVal.record r) => lookupK r l
  | _ => none

theorem lookupK_eq_none_of_not_mem {κ β : Type} [DecidableEq κ]
    (l : List (κ × β)) (k : κ) (h : k ∉ l.map Prod.fst) : lookupK l k = none := by
  induction l with
  | nil => rfl
  | cons p rest ih =>
    obtain ⟨a, b⟩ := p
    simp only [List.map_cons, List.mem_cons] at h
    push_neg at h
    have hak : ¬ a = k := fun hh => h.1 hh.symm
    simp [lookupK, hak, ih h.2]

theorem lookupK_map_val {κ β γ : Type} [DecidableEq κ] (f : β → γ)
    (l : List (κ × β)) (k : κ) :
    lookupK (l.map fun p => (p.1, f p.2)) k = (lookupK l k).map f := by
  induction l with
  | nil => rfl
  | cons p rest ih =>
    obtain ⟨a, b⟩ := p
    by_cases h : a = k
    · simp [lookupK, h]
    · simp [lookupK, h, ih]

theorem mem_keys_upsertK {κ β : Type} [DecidableEq κ]
    (l : List (κ × β)) (k : κ) (v : β) (x : κ) :
    x ∈ (upsertK l k v).map Prod.fst ↔ x = k ∨ x ∈ l.map Prod.fst := by
  induction l with
  | nil => simp [upsertK]
  | cons p rest ih =>
    obtain ⟨a, b⟩ := p
    by_cases h : a = k
    · subst h; simp [upsertK]
    · simp only [upsertK, if_neg h, List.map_cons, List.mem_cons, ih]
      tauto

theorem upsertK_keys_nodup {κ β : Type} [DecidableEq κ]
    (l : List (κ × β)) (k : κ) (v : β) (h : (l.map Prod.fst).Nodup) :
    ((upsertK l k v).map Prod.fst).Nodup := by
  induction l with
  | nil => simp [upsertK]
  | cons p rest ih =>
    obtain ⟨a, b⟩ := p
    simp only [List.map_cons, List.nodup_cons] at h
    by_cases hak : a = k
    · subst hak
      simpa [upsertK] using h
    · simp only [upsertK, if_neg hak, List.map_cons, List.nodup_cons]
      refine ⟨?_, ih h.2⟩
      rw [mem_keys_upsertK]
      rintro (rfl | hmem)
      · exact hak rfl
      · exact h.1 hmem

theorem isSome_lookupK_upsertK {κ β : Type} [DecidableEq κ]
    (l : List (κ × β)) (k k' : κ) (v : β) :
    (lookupK (upsertK l k v) k').isSome = true ↔
      (k = k' ∨ (lookupK l k').isSome = true) := by
  by_cases h : k = k'
  · subst h; rw [lookupK_upsertK_self]; simp
  · rw [lookupK_upsertK_ne _ _ _ _ (fun hh => h hh.symm)]
    simp [h]

theorem accVal_upsertRow (result : List (Int × List (String × GVal))) (j : Int)
    (r : List (String × GVal)) (i : Int) (l : String) :
    accVal (upsertK result j r) i l =
      if j = i then lookupK r l else accVal result i l := by
  unfold accVal
  by_cases h : j = i
  · subst h; rw [lookupK_upsertK_self]; simp
  · rw [lookupK_upsertK_ne _ _ _ _ (fun hh => h hh.symm)]
    simp [h]

theorem processResponses_keys_nodup (env : SNMPEnv) (d : deviceClassOID)
    (responses : List SNMPResponse) :
    ∀ acc m, (acc.map Prod.fst).Nodup →
      processResponses env d responses acc = .ok m → (m.map Prod.fst).Nodup := by
  induction responses with
  | nil =>
    intro acc m hnd h
    simp [processResponses] at h
    exact h ▸ hnd
  | cons response rest ih =>
    intro acc m hnd h
    simp only [processResponses] at h
    cases hr : response.raw with
    | error e => rw [hr] at h; exact absurd h (by simp)
    | ok res =>
      rw [hr] at h
      by_cases hres : res = ""
      · simp only [hres, ne_eq, not_true_eq_false, if_false] at h
        exact ih acc m hnd h
      · simp only [ne_eq, hres, not_false_eq_true, if_true] at h
        cases ha : env.applyOps d.operators res with
        | error e => rw [ha] at h; exact absurd h (by simp)
        | ok v =>
          rw [ha] at h
          cases hg : goAtoi (lastComponent response.oid) with
          | none => rw [hg] at h; exact absurd h (by simp)
          | some idx =>
            rw [hg] at h
            exact ih _ m (upsertK_keys_nodup acc idx v hnd) h

theorem addChild_keys_nodup (label : String) (res : List (Int × GVal)) :
    ∀ result, (result.map Prod.fst).Nodup →
      ((addChild label res result).map Prod.fst).Nodup := by
  induction res with
  | nil => intro result h; exact h
  | cons p restRes ih =>
    obtain ⟨j, v⟩ := p
    intro result h
    exact ih _ (upsertK_keys_nodup result j _ h)

theorem readChildren_keys_nodup (env : SNMPEnv) (children : deviceClassOIDs) :
    ∀ acc m, (acc.map Prod.fst).Nodup →
      readChildren env children acc = .ok m → (m.map Prod.fst).Nodup := by
  induction children with
  | nil =>
    intro acc m hnd h
    simp only [readChildren] at h
    cases h
    simpa [List.map_map, Function.comp] using hnd
  | cons p rest ih =>
    obtain ⟨label, reader⟩ := p
    intro acc m hnd h
    simp only [readChildren] at h
    cases hread : readOIDNode env reader with
    | error e =>
      rw [hread] at h
      by_cases hnf : isNotFoundErr e = true
      · simp only [hnf, if_true] at h
        exact ih acc m hnd h
      · simp only [hnf, if_false] at h
        exact absurd h (by simp)
    | ok res =>
      rw [hread] at h
      exact ih _ m (addChild_keys_nodup label res acc hnd) h

theorem readOIDNode_keys_nodup (env : SNMPEnv) (o : OIDReader)
    (res : List (Int × GVal)) (h : readOIDNode env o = .ok res) :
    (res.map Prod.fst).Nodup := by
  cases o with
  | leaf d =>
    simp only [readOIDNode] at h
    cases hr : deviceClassOID.readOID env d with
    | error e => rw [hr] at h; exact absurd h (by simp)
    | ok r =>
      rw [hr] at h
      cases h
      have hrn : (r.map Prod.fst).Nodup := by
        unfold deviceClassOID.readOID at hr
        by_cases hc : env.hasConnection
        · rw [if_neg (by simp [hc])] at hr
          cases hw : env.walk d.oid with
          | error e => rw [hw] at hr; exact absurd hr (by simp)
          | ok rs =>
            rw [hw] at hr
            exact processResponses_keys_nodup env d rs [] r (by simp) hr
        · rw [if_pos (by simp [hc])] at hr
          exact absurd hr (by simp)
      simpa [List.map_map, Function.comp] using hrn
  | tree ch =>
    simp only [readOIDNode] at h
    exact readChildren_keys_nodup env ch [] res (by simp) h

theorem isSome_lookupK_addChild (label : String) (res : List (Int × GVal)) :
    ∀ (result : List (Int × List (String × GVal))) (i : Int),
      (lookupK (addChild label res result) i).isSome = true ↔
        ((lookupK result i).isSome = true ∨ (lookupK res i).isSome = true) := by
  induction res with
  | nil =>
    intro result i
    simp [addChild, lookupK]
  | cons p restRes ih =>
    obtain ⟨j, v⟩ := p
    intro result i
    simp only [addChild]
    rw [ih]
    rw [isSome_lookupK_upsertK]
    by_cases hji : j = i
    · subst hji
      simp [lookupK]
    · simp only [lookupK, if_neg hji]
      tauto

theorem accVal_addChild (label : String) (res : List (Int × GVal)) :
    ∀ (result : List (Int × List (String × GVal))) (i : Int) (l : String),
      (res.map Prod.fst).Nodup →
      accVal (addChild label res result) i l =
        if l = label then
          (match lookupK res i with
           | some v => some v
           | none => accVal result i l)
        else accVal result i l := by
  induction res with
  | nil =>
    intro result i l _
    by_cases hl : l = label <;> simp [addChild, lookupK, hl]
  | cons p restRes ih =>
    obtain ⟨j, v⟩ := p
    intro result i l hnd
    simp only [List.map_cons, List.nodup_cons] at hnd
    obtain ⟨hj, hnd'⟩ := hnd
    simp only [addChild]
    rw [ih _ i l hnd']
    by_cases hji : j = i
    · subst hji
      have hrest : lookupK restRes j = none := lookupK_eq_none_of_not_mem restRes j hj
      rw [hrest]
      by_cases hl : l = label
      · subst hl
        simp [lookupK, accVal_upsertRow, lookupK_upsertK_self]
      · simp only [if_neg hl]
        rw [accVal_upsertRow]
        simp only [eq_self_iff_true, if_true]
        rw [lookupK_upsertK_ne _ _ _ _ hl]
        unfold accVal
        cases hrow : lookupK result j <;> simp [hrow, lookupK]
    · have hcons : lookupK ((j, v) :: restRes) i = lookupK restRes i := by
        simp [lookupK, hji]
      rw [hcons]
      have hacc : accVal (upsertK result j
          (upsertK ((lookupK result j).getD []) label v)) i l = accVal result i l := by
        rw [accVal_upsertRow, if_neg hji]
      rw [hacc]

/-- Holds when child `(l, reader)` of the tree contributes a value for row
`i`: its read succeeded and produced a row at index `i`. -/
def childContributes (env : SNMPEnv) (children : deviceClassOIDs)
    (i : Int) (l : String) : Prop :=
  ∃ reader res, (l, reader) ∈ children ∧ readOIDNode env reader = .ok res
    ∧ (lookupK res i).isSome = true

/-- The value child `(l, reader)` contributes for row `i`, as a proposition. -/
def childValue (env : SNMPEnv) (children : deviceClassOIDs)
    (i : Int) (l : String) (v : GVal) : Prop :=
  ∃ reader res, (l, reader) ∈ children ∧ readOIDNode env reader = .ok res
    ∧ lookupK res i = some v

theorem readChildren_char (env : SNMPEnv) (children : deviceClassOIDs) :
    ∀ acc m,
      (children.map Prod.fst).Nodup →
      (∀ l reader res, (l, reader) ∈ children → readOIDNode env reader = .ok res →
        (res.map Prod.fst).Nodup) →
      readChildren env children acc = .ok m →
      (∀ i, (lookupK m i).isSome = true ↔
        ((lookupK acc i).isSome = true ∨ ∃ l, childContributes env children i l))
      ∧ (∀ i l v, rowVal m i l = some v ↔
        (childValue env children i l v
          ∨ (¬ childContributes env children i l ∧ accVal acc i l = some v))) := by
  induction children with
  | nil =>
    intro acc m _ _ h
    simp only [readChildren] at h
    cases h
    constructor
    · intro i
      rw [lookupK_map_val]
      simp [childContributes]
    · intro i l v
      unfold rowVal accVal childValue childContributes
      rw [lookupK_map_val]
      cases hrow : lookupK acc i <;> simp [hrow]
  | cons p rest ih =>
    obtain ⟨label, reader⟩ := p
    intro acc m hnd hres h
    simp only [List.map_cons, List.nodup_cons] at hnd
    obtain ⟨hlab, hnd'⟩ := hnd
    have hres' : ∀ l r rs, (l, r) ∈ rest → readOIDNode env r = .ok rs →
        (rs.map Prod.fst).Nodup := fun l r rs hm => hres l r rs (List.mem_cons_of_mem _ hm)
    simp only [readChildren] at h
    cases hread : readOIDNode env reader with
    | error e =>
      rw [hread] at h
      by_cases hnf : isNotFoundErr e = true
      · simp only [hnf, if_true] at h
        obtain ⟨hrow, hval⟩ := ih acc m hnd' hres' h
        -- the failed head never contributes: any ok-read of it is impossible
        have hhead_dead : ∀ (r : OIDReader) (rs : List (Int × GVal)) (l : String),
            (l, r) ∈ (label, reader) :: rest → readOIDNode env r = .ok rs →
            (l, r) ∈ rest := by
          intro r rs l hm hr
          rcases List.mem_cons.mp hm with heq | hm'
          · exfalso
            have h2 : r = reader := congrArg Prod.snd heq
            rw [h2, hread] at hr
            exact absurd hr (by simp)
          · exact hm'
        have hcc : ∀ i l, childContributes env ((label, reader) :: rest) i l ↔
            childContributes env rest i l := by
          intro i l
          constructor
          · rintro ⟨r, rs, hm, hr, hs⟩
            exact ⟨r, rs, hhead_dead r rs l hm hr, hr, hs⟩
          · rintro ⟨r, rs, hm, hr, hs⟩
            exact ⟨r, rs, List.mem_cons_of_mem _ hm, hr, hs⟩
        have hcv : ∀ i l v, childValue env ((label, reader) :: rest) i l v ↔
            childValue env rest i l v := by
          intro i l v
          constructor
          · rintro ⟨r, rs, hm, hr, hs⟩
            exact ⟨r, rs, hhead_dead r rs l hm hr, hr, hs⟩
          · rintro ⟨r, rs, hm, hr, hs⟩
            exact ⟨r, rs, List.mem_cons_of_mem _ hm, hr, hs⟩
        constructor
        · intro i
          rw [hrow i]
          constructor
          · rintro (hacc | ⟨l, hc⟩)
            · exact Or.inl hacc
            · exact Or.inr ⟨l, (hcc i l).mpr hc⟩
          · rintro (hacc | ⟨l, hc⟩)
            · exact Or.inl hacc
            · exact Or.inr ⟨l, (hcc i l).mp hc⟩
        · intro i l v
          rw [hval i l v, hcv i l v, hcc i l]
      · simp only [hnf, if_false] at h
        exact absurd h (by simp)
    | ok res =>
      rw [hread] at h
      obtain ⟨hrow, hval⟩ := ih (addChild label res acc) m hnd' hres' h
      have hresnd : (res.map Prod.fst).Nodup :=
        hres label reader res (List.mem_cons_self _ _) hread
      constructor
      · intro i
        rw [hrow i, isSome_lookupK_addChild]
        constructor
        · rintro ((hacc | hres2) | ⟨l, r, rs, hm, hr, hs⟩)
          · exact Or.inl hacc
          · exact Or.inr ⟨label, reader, res, List.mem_cons_self _ _, hread, hres2⟩
          · exact Or.inr ⟨l, r, rs, List.mem_cons_of_mem _ hm, hr, hs⟩
        · rintro (hacc | ⟨l, r, rs, hm, hr, hs⟩)
          · exact Or.inl (Or.inl hacc)
          · rcases List.mem_cons.mp hm with heq | hm'
            · have h2 : r = reader := congrArg Prod.snd heq
              rw [h2, hread] at hr
              cases hr
              exact Or.inl (Or.inr hs)
            · exact Or.inr ⟨l, r, rs, hm', hr, hs⟩
      · intro i l v
        rw [hval i l v]
        rw [accVal_addChild label res acc i l hresnd]
        by_cases hl : l = label
        · rw [if_pos hl]
          -- under label-uniqueness the head is the only child labelled l
          have hmem_false : ∀ r : OIDReader, (l, r) ∈ rest → False := fun r hm =>
            hlab (hl ▸ List.mem_map.mpr ⟨(l, r), hm, rfl⟩)
          have hcv_rest : ∀ v', ¬ childValue env rest i l v' := by
            rintro v' ⟨r, rs, hm, _, _⟩
            exact hmem_false r hm
          have hcc_rest : ¬ childContributes env rest i l := by
            rintro ⟨r, rs, hm, _, _⟩
            exact hmem_false r hm
          have hhead_char : ∀ (r : OIDReader) rs, (l, r) ∈ (label, reader) :: rest →
              readOIDNode env r = .ok rs → r = reader ∧ rs = res := by
            intro r rs hm hr
            rcases List.mem_cons.mp hm with heq | hm'
            · have h2 : r = reader := congrArg Prod.snd heq
              subst h2
              rw [hread] at hr
              cases hr
              exact ⟨rfl, rfl⟩
            · exact absurd hm' (fun hh => hmem_false r hh)
          have hcv_cons : childValue env ((label, reader) :: rest) i l v ↔
              lookupK res i = some v := by
            constructor
            · rintro ⟨r, rs, hm, hr, hs⟩
              obtain ⟨h1, h2⟩ := hhead_char r rs hm hr
              subst h1; subst h2
              exact hs
            · intro hs
              exact ⟨reader, res, by rw [hl]; exact List.mem_cons_self _ _, hread, hs⟩
          have hcc_cons : childContributes env ((label, reader) :: rest) i l ↔
              (lookupK res i).isSome = true := by
            constructor
            · rintro ⟨r, rs, hm, hr, hs⟩
              obtain ⟨h1, h2⟩ := hhead_char r rs hm hr
              subst h1; subst h2
              exact hs
            · intro hs
              exact ⟨reader, res, by rw [hl]; exact List.mem_cons_self _ _, hread, hs⟩
          rw [hcv_cons, hcc_cons]
          simp only [iff_false_intro (hcv_rest v), false_or,
            iff_false_intro hcc_rest, not_false_iff, true_and]
          cases hlk : lookupK res i <;> simp [hlk]
        · rw [if_neg hl]
          have hnothead : ∀ (r : OIDReader) rs, ((l, r) ∈ (label, reader) :: rest ∧
              readOIDNode env r = .ok rs) ↔ ((l, r) ∈ rest ∧ readOIDNode env r = .ok rs) := by
            intro r rs
            constructor
            · rintro ⟨hm, hr⟩
              rcases List.mem_cons.mp hm with heq | hm'
              · exact absurd (congrArg Prod.fst heq) hl
              · exact ⟨hm', hr⟩
            · rintro ⟨hm, hr⟩
              exact ⟨List.mem_cons_of_mem _ hm, hr⟩
          constructor
          · rintro (⟨r, rs, hm, hr, hs⟩ | ⟨hnc, hacc⟩)
            · exact Or.inl ⟨r, rs, List.mem_cons_of_mem _ hm, hr, hs⟩
            · refine Or.inr ⟨?_, hacc⟩
              rintro ⟨r, rs, hm, hr, hs⟩
              exact hnc ⟨r, rs, ((hnothead r rs).mp ⟨hm, hr⟩).1, hr, hs⟩
          · rintro (⟨r, rs, hm, hr, hs⟩ | ⟨hnc, hacc⟩)
            · exact Or.inl ⟨r, rs, ((hnothead r rs).mp ⟨hm, hr⟩).1, hr, hs⟩
            · refine Or.inr ⟨?_, hacc⟩
              rintro ⟨r, rs, hm, hr, hs⟩
              exact hnc ⟨r, rs, List.mem_cons_of_mem _ hm, hr, hs⟩

theorem readChildren_ok_of_children (env : SNMPEnv) (children : deviceClassOIDs) :
    ∀ acc,
      (∀ l reader, (l, reader) ∈ children →
        (∃ res, readOIDNode env reader = .ok res)
          ∨ readOIDNode env reader = .error .notFound) →
      ∃ m, readChildren env children acc = .ok m := by
  induction children with
  | nil => intro acc _; exact ⟨_, rfl⟩
  | cons p rest ih =>
    obtain ⟨label, reader⟩ := p
    intro acc hok
    simp only [readChildren]
    rcases hok label reader (List.mem_cons_self _ _) with ⟨res, hres⟩ | hnf
    · rw [hres]
      exact ih _ (fun l r hm => hok l r (List.mem_cons_of_mem _ hm))
    · rw [hnf]
      simp only [isNotFoundErr, if_true]
      exact ih acc (fun l r hm => hok l r (List.mem_cons_of_mem _ hm))

theorem readChildren_error_of_hard (env : SNMPEnv) (children : deviceClassOIDs) :
    ∀ acc l reader e, (l, reader) ∈ children → readOIDNode env reader = .error e →
      isNotFoundErr e = false →
      ∃ e', readChildren env children acc = .error e' ∧ isNotFoundErr e' = false := by
  induction children with
  | nil => intro acc l reader e hm; exact absurd hm (List.not_mem_nil _)
  | cons p rest ih =>
    obtain ⟨label, r0⟩ := p
    intro acc l reader e hm hr hnf
    simp only [readChildren]
    cases hread : readOIDNode env r0 with
    | error e0 =>
      by_cases hnf0 : isNotFoundErr e0 = true
      · simp only [hnf0, if_true]
        rcases List.mem_cons.mp hm with heq | hm'
        · exfalso
          have h2 : reader = r0 := congrArg Prod.snd heq
          rw [← h2, hr] at hread
          cases hread
          rw [hnf0] at hnf
          exact Bool.noConfusion hnf
        · exact ih acc l reader e hm' hr hnf
      · simp only [hnf0, if_false]
        exact ⟨e0, rfl, Bool.not_eq_true _ ▸ hnf0⟩
    | ok res =>
      rcases List.mem_cons.mp hm with heq | hm'
      · exfalso
        have h2 : reader = r0 := congrArg Prod.snd heq
        rw [← h2, hr] at hread
        exact Except.noConfusion hread
      · exact ih _ l reader e hm' hr hnf

/-- C5: reading a nested query-definition tree (with distinct child labels)
gives (1) success whenever every child read succeeds or fails with NotFound,
(2) an aborted read (with a non-NotFound error) whenever some child fails
with anything other than NotFound, and (3) on success, one row per index in
the union of the indices seen across the child reads, where row `i` carries
label `l` with value `v` exactly when the child labelled `l` read
successfully and produced `v` at index `i` (rows are populated only with the
labels that had a value at that index; NotFound children are skipped). -/
theorem deviceClassOIDs_readOID_union (env : SNMPEnv) (children : deviceClassOIDs)
    (hnd : (children.map Prod.fst).Nodup) :
    ((∀ l reader, (l, reader) ∈ children →
        (∃ res, readOIDNode env reader = .ok res)
          ∨ readOIDNode env reader = .error .notFound) →
      ∃ m, deviceClassOIDs.readOID env children = .ok m)
    ∧ (∀ l reader e, (l, reader) ∈ children → readOIDNode env reader = .error e →
        isNotFoundErr e = false →
        ∃ e', deviceClassOIDs.readOID env children = .error e'
          ∧ isNotFoundErr e' = false)
    ∧ (∀ m, deviceClassOIDs.readOID env children = .ok m →
        (∀ i, (lookupK m i).isSome = true ↔ ∃ l, childContributes env children i l)
        ∧ (∀ i l v, rowVal m i l = some v ↔ childValue env children i l v)) := by
  refine ⟨?_, ?_, ?_⟩
  · intro hok
    exact readChildren_ok_of_children env children [] hok
  · intro l reader e hm hr hnf
    exact readChildren_error_of_hard env children [] l reader e hm hr hnf
  · intro m h
    have hres : ∀ l reader res, (l, reader) ∈ children →
        readOIDNode env reader = .ok res → (res.map Prod.fst).Nodup :=
      fun l reader res _ hr => readOIDNode_keys_nodup env reader res hr
    obtain ⟨hrow, hval⟩ := readChildren_char env children [] m hnd hres h
    constructor
    · intro i
      rw [hrow i]
      simp [lookupK]
    · intro i l v
      rw [hval i l v]
      simp [accVal, lookupK]

/-- Input for the C5 witness, following the spec example: label X has rows
{1, 2}, label Y has a row only at {2}, label Z is absent on the device. -/
def envXY : SNMPEnv :=
  { hasConnection := true
    walk := fun o =>
      if o = ".9.1" then .ok [⟨".9.1.1", .ok "x1"⟩, ⟨".9.1.2", .ok "x2"⟩]
      else if o = ".9.2" then .ok [⟨".9.2.2", .ok "y2"⟩]
      else .error .notFound
    applyOps := fun _ s => .ok s
    snmpGet := fun _ => .error .notFound }

def treeXY : deviceClassOIDs :=
  [("X", .leaf { oid := ".9.1", operators := 0 }),
   ("Y", .leaf { oid := ".9.2", operators := 0 }),
   ("Z", .leaf { oid := ".9.3", operators := 0 })]

/-- C5 witness: on the spec example the read succeeds (the NotFound child Z
does not fail it), and the result is row 1 with only X and row 2 with X and
Y. -/
theorem deviceClassOIDs_readOID_union_witness :
    (∃ m, deviceClassOIDs.readOID envXY treeXY = .ok m)
    ∧ deviceClassOIDs.readOID envXY treeXY =
        .ok [(1, GVal.record [("X", .str "x1")]),
             (2, GVal.record [("X", .str "x2"), ("Y", .str "y2")])] := by
  constructor
  · obtain ⟨h1, _, _⟩ := deviceClassOIDs_readOID_union envXY treeXY (by decide)
    refine h1 ?_
    intro l reader hm
    simp only [treeXY, List.mem_cons, List.not_mem_nil, or_false] at hm
    rcases hm with h | h | h
    · have h2 : reader = OIDReader.leaf { oid := ".9.1", operators := 0 } :=
        congrArg Prod.snd h
      subst h2
      exact Or.inl ⟨_, rfl⟩
    · have h2 : reader = OIDReader.leaf { oid := ".9.2", operators := 0 } :=
        congrArg Prod.snd h
      subst h2
      exact Or.inl ⟨_, rfl⟩
    · have h2 : reader = OIDReader.leaf { oid := ".9.3", operators := 0 } :=
        congrArg Prod.snd h
      subst h2
      exact Or.inr rfl
  · rfl

/-! ## The property-group decoder sort (C4) -/

/-- The inner scan of `snmpGroupPropertyReader.getProperty` (lines 44-54):
find the smallest row index still in the map (the Go loop starts from the
first iterated key and lowers; the result is the minimum, independent of
iteration order). -/
def minKeyOf {β : Type} : List (Int × β) → Option Int
  | [] => none
  | (k, _) :: rest =>
    match minKeyOf rest with
    | none => some k
    | some m => some (if m < k then m else k)

/-- `delete(groups, smallestIndex)` (line 61). -/
def eraseK {β : Type} : List (Int × β) → Int → List (Int × β)
  | [], _ => []
  | (k', v) :: rest, k => if k' = k then rest else (k', v) :: eraseK rest k

/-- The outer loop of `snmpGroupPropertyReader.getProperty` (lines 42-62):
exactly `size` iterations; each extracts the row with the smallest index,
asserts it is a label-keyed record (`map[string]interface{}`), appends it and
deletes it from the map. An exhausted map (unreachable: the loop runs once
per initial entry) or a non-record row fails the type assertion. -/
def sortGroupsE : Nat → List (Int × GVal) →
    Except ErrKind (List (List (String × GVal)))
  | 0, _ => .ok []
  | n + 1, groups =>
    match minKeyOf groups with
    | none => .error (.other "oidReader returned unexpected data type")
    | some smallestIndex =>
      match lookupK groups smallestIndex with
      | some (GVal.record x) =>
        match sortGroupsE n (eraseK groups smallestIndex) with
        | .error e => .error e
        | .ok res => .ok (x :: res)
      | _ => .error (.other "oidReader returned unexpected data type")

/-- Embeds `snmpGroupPropertyReader.getProperty` (lines 32-65): read the OID
tree (wrapping preserves the error kind), then emit the rows sorted by
ascending row index. -/
def snmpGroupPropertyReader.getProperty (env : SNMPEnv) (oids : deviceClassOIDs) :
    Except ErrKind (List (List (String × GVal))) :=
  match deviceClassOIDs.readOID env oids with
  | .error e => .error e
  | .ok groups => sortGroupsE groups.length groups

theorem minKeyOf_eq_none {β : Type} (g : List (Int × β)) :
    minKeyOf g = none ↔ g = [] := by
  cases g with
  | nil => simp [minKeyOf]
  | cons p rest =>
    obtain ⟨k, v⟩ := p
    simp only [minKeyOf]
    cases minKeyOf rest <;> simp

theorem minKeyOf_mem {β : Type} (g : List (Int × β)) (k : Int)
    (h : minKeyOf g = some k) : k ∈ g.map Prod.fst := by
  induction g generalizing k with
  | nil => exact absurd h (by simp [minKeyOf])
  | cons p rest ih =>
    obtain ⟨a, b⟩ := p
    simp only [minKeyOf] at h
    cases hm : minKeyOf rest with
    | none => rw [hm] at h; cases h; simp
    | some m =>
      rw [hm] at h
      cases h
      by_cases hc : m < a
      · simp only [if_pos hc]
        exact List.mem_cons_of_mem _ (ih m hm)
      · simp only [if_neg hc]
        simp

theorem minKeyOf_le {β : Type} (g : List (Int × β)) (k : Int)
    (h : minKeyOf g = some k) : ∀ j ∈ g.map Prod.fst, k ≤ j := by
  induction g generalizing k with
  | nil => exact absurd h (by simp [minKeyOf])
  | cons p rest ih =>
    obtain ⟨a, b⟩ := p
    intro j hj
    simp only [minKeyOf] at h
    cases hm : minKeyOf rest with
    | none =>
      rw [hm] at h
      cases h
      have : rest = [] := (minKeyOf_eq_none rest).mp hm
      subst this
      simp at hj
      omega
    | some m =>
      rw [hm] at h
      cases h
      simp only [List.map_cons, List.mem_cons] at hj
      rcases hj with rfl | hj'
      · by_cases hc : m < j <;> simp [hc] <;> omega
      · have hmj := ih m hm j hj'
        by_cases hc : m < a <;> simp [hc] <;> omega

theorem mem_keys_lookupK {κ β : Type} [DecidableEq κ] (g : List (κ × β)) (k : κ)
    (h : k ∈ g.map Prod.fst) : ∃ v, lookupK g k = some v := by
  induction g with
  | nil => simp at h
  | cons p rest ih =>
    obtain ⟨a, b⟩ := p
    by_cases hak : a = k
    · exact ⟨b, by simp [lookupK, hak]⟩
    · simp only [List.map_cons, List.mem_cons] at h
      rcases h with rfl | h'
      · exact absurd rfl hak
      · obtain ⟨v, hv⟩ := ih h'
        exact ⟨v, by simp [lookupK, hak, hv]⟩

theorem eraseK_perm {β : Type} (g : List (Int × β)) (k : Int) (v : β)
    (h : lookupK g k = some v) : g.Perm ((k, v) :: eraseK g k) := by
  induction g with
  | nil => exact absurd h (by simp [lookupK])
  | cons p rest ih =>
    obtain ⟨a, b⟩ := p
    by_cases hak : a = k
    · subst hak
      simp only [lookupK, if_pos rfl] at h
      cases h
      simp only [eraseK, if_pos rfl]
      exact List.Perm.refl _
    · simp only [lookupK, if_neg hak] at h
      simp only [eraseK, if_neg hak]
      exact ((ih h).cons (a, b)).trans (List.Perm.swap _ _ _)

theorem eraseK_map {β γ : Type} (f : β → γ) (g : List (Int × β)) (k : Int) :
    eraseK (g.map fun p => (p.1, f p.2)) k = (eraseK g k).map fun p => (p.1, f p.2) := by
  induction g with
  | nil => rfl
  | cons p rest ih =>
    obtain ⟨a, b⟩ := p
    by_cases hak : a = k <;> simp [eraseK, hak, ih]

theorem minKeyOf_map {β γ : Type} (f : β → γ) (g : List (Int × β)) :
    minKeyOf (g.map fun p => (p.1, f p.2)) = minKeyOf g := by
  induction g with
  | nil => rfl
  | cons p rest ih =>
    obtain ⟨a, b⟩ := p
    simp [minKeyOf, ih]

theorem sortGroupsE_char : ∀ (n : Nat) (groups : List (Int × List (String × GVal))),
    n = groups.length → (groups.map Prod.fst).Nodup →
    ∃ l', List.Perm l' groups ∧ (l'.map Prod.fst).Pairwise (· < ·)
      ∧ sortGroupsE n (groups.map fun p => (p.1, GVal.record p.2))
          = .ok (l'.map Prod.snd) := by
  intro n
  induction n with
  | zero =>
    intro groups hlen hnd
    have hg : groups = [] := List.length_eq_zero.mp hlen.symm
    subst hg
    exact ⟨[], List.Perm.refl _, by simp, rfl⟩
  | succ n ih =>
    intro groups hlen hnd
    cases hmk : minKeyOf groups with
    | none =>
      exfalso
      have hg : groups = [] := (minKeyOf_eq_none groups).mp hmk
      subst hg
      simp at hlen
    | some k =>
      have hkmem : k ∈ groups.map Prod.fst := minKeyOf_mem groups k hmk
      obtain ⟨x, hlk⟩ := mem_keys_lookupK groups k hkmem
      have hperm : groups.Perm ((k, x) :: eraseK groups k) := eraseK_perm groups k x hlk
      have hndcons : (k :: (eraseK groups k).map Prod.fst).Nodup := by
        have hkp := hperm.map Prod.fst
        rw [List.map_cons] at hkp
        exact hkp.nodup_iff.mp hnd
      obtain ⟨hknotin, hnderase⟩ := List.nodup_cons.mp hndcons
      have hlen' : n = (eraseK groups k).length := by
        have := hperm.length_eq
        simp only [List.length_cons] at this
        omega
      obtain ⟨l'', hp'', hsort'', heq''⟩ := ih (eraseK groups k) hlen' hnderase
      refine ⟨(k, x) :: l'', (hp''.cons (k, x)).trans hperm.symm, ?_, ?_⟩
      · simp only [List.map_cons]
        refine List.Pairwise.cons ?_ hsort''
        intro j hj
        have hjer : j ∈ (eraseK groups k).map Prod.fst :=
          (hp''.map Prod.fst).mem_iff.mp hj
        have hjall : j ∈ groups.map Prod.fst := by
          have hkp := hperm.map Prod.fst
          rw [List.map_cons] at hkp
          exact hkp.symm.mem_iff.mp (List.mem_cons_of_mem _ hjer)
        have hle := minKeyOf_le groups k hmk j hjall
        have hne : k ≠ j := fun heq => hknotin (heq ▸ hjer)
        exact lt_of_le_of_ne hle hne
      · have hmkgg : minKeyOf (groups.map fun p => (p.1, GVal.record p.2)) = some k := by
          rw [minKeyOf_map]; exact hmk
        have hlkgg : lookupK (groups.map fun p => (p.1, GVal.record p.2)) k
            = some (GVal.record x) := by
          rw [lookupK_map_val, hlk]; rfl
        have herasegg : eraseK (groups.map fun p => (p.1, GVal.record p.2)) k
            = (eraseK groups k).map fun p => (p.1, GVal.record p.2) := eraseK_map _ groups k
        simp only [sortGroupsE, hmkgg, hlkgg, herasegg, heq'', List.map_cons]

/-- C4: for every grouped read result that is a finite map from row index to
label-to-value records (keys unique, values records), the sequence produced
by the property-group decoder is the records of the input map, each exactly
once, ordered by strictly ascending row index, regardless of the order the
rows were produced in. -/
theorem getProperty_sorted_by_index (env : SNMPEnv) (oids : deviceClassOIDs)
    (groups : List (Int × List (String × GVal)))
    (hnd : (groups.map Prod.fst).Nodup)
    (hread : deviceClassOIDs.readOID env oids
      = .ok (groups.map fun p => (p.1, GVal.record p.2))) :
    ∃ l', List.Perm l' groups ∧ (l'.map Prod.fst).Pairwise (· < ·)
      ∧ snmpGroupPropertyReader.getProperty env oids = .ok (l'.map Prod.snd) := by
  obtain ⟨l', hp, hs, hc⟩ := sortGroupsE_char groups.length groups rfl hnd
  refine ⟨l', hp, hs, ?_⟩
  unfold snmpGroupPropertyReader.getProperty
  rw [hread]
  simpa [List.length_map] using hc

/-- Input for the C4 witness: one label with rows arriving in the order
{5, 1, 3}. -/
def envC4 : SNMPEnv :=
  { hasConnection := true
    walk := fun _ => .ok [⟨".8.5", .ok "a5"⟩, ⟨".8.1", .ok "a1"⟩, ⟨".8.3", .ok "a3"⟩]
    applyOps := fun _ s => .ok s
    snmpGet := fun _ => .error .notFound }

def treeC4 : deviceClassOIDs := [("V", .leaf { oid := ".8", operators := 0 })]

/-- C4 witness: rows arriving in index order {5, 1, 3} are decoded in the
order [1, 3, 5]. -/
theorem getProperty_sorted_by_index_witness :
    (∃ l', List.Perm l'
        [((5 : Int), [("V", GVal.str "a5")]), (1, [("V", GVal.str "a1")]),
         (3, [("V", GVal.str "a3")])]
      ∧ (l'.map Prod.fst).Pairwise (· < ·)
      ∧ snmpGroupPropertyReader.getProperty envC4 treeC4 = .ok (l'.map Prod.snd))
    ∧ snmpGroupPropertyReader.getProperty envC4 treeC4 =
        .ok [[("V", GVal.str "a1")], [("V", GVal.str "a3")], [("V", GVal.str "a5")]] := by
  constructor
  · exact getProperty_sorted_by_index envC4 treeC4
      [(5, [("V", GVal.str "a5")]), (1, [("V", GVal.str "a1")]),
       (3, [("V", GVal.str "a3")])] (by decide) rfl
  · rfl

/-! ## Device-class merge (C7): value-level embedding

`deviceClassOIDs.merge` (lines 102-121) copies the base map and then, for
every overwrite entry, either recursively merges (when both sides hold a
nested tree at that key) or lets the overwrite entry win. Go map iteration
order is unspecified; iterating the overwrite list entry by entry gives the
same map extensionally, which is how every property below is stated. -/

mutual

/-- Embeds `deviceClassOIDs.merge` (lines 102-121), one overwrite entry at a
time over the copied base map. -/
def deviceClassOIDs.merge (d : deviceClassOIDs) : deviceClassOIDs → deviceClassOIDs
  | [] => d
  | (k, v) :: rest =>
    deviceClassOIDs.merge (upsertK d k (mergeEntry (lookupK d k) v)) rest

/-- The loop body of the merge (lines 108-117): given the base value found
for the overwrite key (if any) and the overwrite value, recursively merge
when both are nested trees, else let the overwrite value win. -/
def mergeEntry : Option OIDReader → OIDReader → OIDReader
  | some (OIDReader.tree oidsOld), OIDReader.tree oidsOverwrite =>
    OIDReader.tree (deviceClassOIDs.merge oidsOld oidsOverwrite)
  | _, v => v

end

/-- The value the merge stores for one overwrite entry `(k, v)`. -/
def mergeValueAt (d : deviceClassOIDs) (k : String) (v : OIDReader) : OIDReader :=
  mergeEntry (lookupK d k) v

theorem mergeValueAt_congr (d1 d2 : deviceClassOIDs) (k : String) (v : OIDReader)
    (h : lookupK d1 k = lookupK d2 k) : mergeValueAt d1 k v = mergeValueAt d2 k v := by
  unfold mergeValueAt
  rw [h]

theorem merge_step (d : deviceClassOIDs) (k : String) (v : OIDReader)
    (rest : deviceClassOIDs) :
    deviceClassOIDs.merge d ((k, v) :: rest)
      = deviceClassOIDs.merge (upsertK d k (mergeValueAt d k v)) rest := by
  simp [deviceClassOIDs.merge, mergeValueAt]

theorem merge_lookup_not_mem :
    ∀ (ow d : deviceClassOIDs) (k : String), k ∉ ow.map Prod.fst →
      lookupK (deviceClassOIDs.merge d ow) k = lookupK d k := by
  intro ow
  induction ow with
  | nil => intro d k _; simp [deviceClassOIDs.merge]
  | cons p rest ih =>
    obtain ⟨k0, v0⟩ := p
    intro d k hk
    simp only [List.map_cons, List.mem_cons] at hk
    push_neg at hk
    rw [merge_step, ih _ k hk.2, lookupK_upsertK_ne _ _ _ _ hk.1]

theorem merge_lookup_mem :
    ∀ (ow d : deviceClassOIDs) (k : String) (v : OIDReader),
      (ow.map Prod.fst).Nodup → lookupK ow k = some v →
      lookupK (deviceClassOIDs.merge d ow) k = some (mergeValueAt d k v) := by
  intro ow
  induction ow with
  | nil => intro d k v _ hv; exact absurd hv (by simp [lookupK])
  | cons p rest ih =>
    obtain ⟨k0, v0⟩ := p
    intro d k v hnd hv
    simp only [List.map_cons, List.nodup_cons] at hnd
    obtain ⟨hk0, hnd'⟩ := hnd
    rw [merge_step]
    by_cases hkk : k0 = k
    · subst hkk
      simp only [lookupK, if_pos rfl] at hv
      cases hv
      rw [merge_lookup_not_mem rest _ k0 hk0, lookupK_upsertK_self]
    · simp only [lookupK, if_neg hkk] at hv
      have hlk : lookupK (upsertK d k0 (mergeValueAt d k0 v0)) k = lookupK d k :=
        lookupK_upsertK_ne _ _ _ _ (fun hh => hkk hh.symm)
      rw [ih _ k v hnd' hv, mergeValueAt_congr _ d k v hlk]

theorem merge_lookup_none :
    ∀ (ow d : deviceClassOIDs) (k : String),
      (ow.map Prod.fst).Nodup → lookupK ow k = none →
      lookupK (deviceClassOIDs.merge d ow) k = lookupK d k := by
  intro ow
  induction ow with
  | nil => intro d k _ _; simp [deviceClassOIDs.merge]
  | cons p rest ih =>
    obtain ⟨k0, v0⟩ := p
    intro d k hnd hv
    simp only [List.map_cons, List.nodup_cons] at hnd
    obtain ⟨hk0, hnd'⟩ := hnd
    by_cases hkk : k0 = k
    · subst hkk
      simp [lookupK] at hv
    · simp only [lookupK, if_neg hkk] at hv
      rw [merge_step, ih _ k hnd' hv,
        lookupK_upsertK_ne _ _ _ _ (fun hh => hkk hh.symm)]

/-- C7: for every key of the merged tree, with unique overwrite keys: when
both the base and the overwrite hold a nested subtree at `k` the merge holds
the recursive merge of the two subtrees; when the overwrite holds anything
else at `k` (or the base has no subtree there) the overwrite value replaces
the base value wholesale; keys absent from the overwrite keep the base value
unchanged. -/
theorem deviceClassOIDs_merge_char (d ow : deviceClassOIDs) (k : String)
    (hnd : (ow.map Prod.fst).Nodup) :
    (∀ v, lookupK ow k = some v →
      lookupK (deviceClassOIDs.merge d ow) k = some (mergeValueAt d k v)
      ∧ (∀ a b, lookupK d k = some (.tree a) → v = .tree b →
          mergeValueAt d k v = .tree (deviceClassOIDs.merge a b))
      ∧ (((∀ a, lookupK d k ≠ some (.tree a)) ∨ ∀ b, v ≠ .tree b) →
          mergeValueAt d k v = v))
    ∧ (lookupK ow k = none →
      lookupK (deviceClassOIDs.merge d ow) k = lookupK d k) := by
  constructor
  · intro v hv
    refine ⟨merge_lookup_mem ow d k v hnd hv, ?_, ?_⟩
    · intro a b ha hb
      subst hb
      unfold mergeValueAt
      rw [ha]
      simp [mergeEntry]
    · intro hnot
      unfold mergeValueAt
      cases hd : lookupK d k with
      | none => cases v <;> simp [mergeEntry]
      | some r =>
        cases r with
        | leaf dd => cases v <;> simp [mergeEntry]
        | tree a =>
          cases v with
          | leaf dd => simp [mergeEntry]
          | tree b =>
            exfalso
            rcases hnot with hnot | hnot
            · exact hnot a hd
            · exact hnot b rfl
  · intro hv
    exact merge_lookup_none ow d k hnd hv

/-- Leaves for the merge witnesses, distinguished by their operator id. -/
def leafW (n : Nat) : OIDReader := .leaf { oid := ".w", operators := n }

/-- Base tree for the C7 witness: a subtree at "g", a leaf at "s", a leaf
only it has at "only". -/
def dW : deviceClassOIDs :=
  [("g", .tree [("x", leafW 1)]), ("s", leafW 2), ("only", leafW 3)]

/-- Overwrite tree for the C7 witness: a subtree at "g" (deep merge) and a
subtree at "s" (replacing the base leaf wholesale). -/
def owW : deviceClassOIDs :=
  [("g", .tree [("y", leafW 4)]), ("s", .tree [("z", leafW 5)])]

/-- C7 witness: at "g" the two subtrees merge recursively, at "s" the
overwrite subtree replaces the base leaf, and "only" is unchanged. -/
theorem deviceClassOIDs_merge_char_witness :
    lookupK (deviceClassOIDs.merge dW owW) "g"
        = some (.tree [("x", leafW 1), ("y", leafW 4)])
    ∧ lookupK (deviceClassOIDs.merge dW owW) "s" = some (.tree [("z", leafW 5)])
    ∧ lookupK (deviceClassOIDs.merge dW owW) "only" = some (leafW 3) := by
  have hnd : (owW.map Prod.fst).Nodup := by decide
  refine ⟨?_, ?_, ?_⟩
  · have h := ((deviceClassOIDs_merge_char dW owW "g" hnd).1 (.tree [("y", leafW 4)]) rfl).1
    rw [h]; rfl
  · have h := ((deviceClassOIDs_merge_char dW owW "s" hnd).1 (.tree [("z", leafW 5)]) rfl).1
    rw [h]; rfl
  · have h := (deviceClassOIDs_merge_char dW owW "only" hnd).2 rfl
    rw [h]; rfl

/-! ## Device-class merge (C6): heap-level embedding

To state that the merge mutates neither input, Go map values are given
identity: a heap holds the allocated maps, a node refers to a nested map by
address, and `merge` allocates. Go writes the result map while looping; here
the result cell is appended once its content is complete — the same final
contents, and in both cases no pre-existing cell is ever written. -/

/-- A value of a heap cell: a leaf OID or a pointer to a nested map. -/
inductive HNode where
  | leaf (d : deviceClassOID)
  | tree (addr : Nat)
deriving DecidableEq

/-- The allocated Go maps: cell `a` is the map at address `a`; allocation
appends. -/
structure Heap where
  cells : List (List (String × HNode))
deriving DecidableEq

/-- Dereference one map address. -/
def cellOf (h : Heap) (a : Nat) : List (String × HNode) := h.cells.getD a []

/-- The merge loop over the overwrite entries (lines 107-118), with the
recursive merge for smaller fuel passed in. Builds the content of the new
map, threading the heap through recursive allocations. -/
def mergeHLoop (recMerge : Heap → Nat → Nat → Option (Nat × Heap)) :
    Heap → List (String × HNode) → List (String × HNode) →
    Option (List (String × HNode) × Heap)
  | h, acc, [] => some (acc, h)
  | h, acc, (k, v) :: rest =>
    match lookupK acc k, v with
    | some (HNode.tree aOld), HNode.tree aOw =>
      match recMerge h aOld aOw with
      | none => none
      | some (r, h') => mergeHLoop recMerge h' (upsertK acc k (HNode.tree r)) rest
    | _, _ => mergeHLoop recMerge h (upsertK acc k v) rest

/-- Embeds `deviceClassOIDs.merge` (lines 102-121) at the heap level: copy
the base cell, fold in the overwrite cell, allocate the result as a new map.
Fuel bounds the recursion depth (`none` = fuel exhausted; any acyclic heap
is handled by enough fuel). -/
def mergeH : Nat → Heap → Nat → Nat → Option (Nat × Heap)
  | 0, _, _, _ => none
  | fuel + 1, h, a, b =>
    match mergeHLoop (mergeH fuel) h (cellOf h a) (cellOf h b) with
    | none => none
    | some (newCell, h1) => some (h1.cells.length, ⟨h1.cells ++ [newCell]⟩)

/-- The tree-read loop of `deviceClassOIDs.readOID` (lines 76-92) over a heap
cell, with the recursive node read passed in. -/
def readCellLoop (recRead : Heap → HNode → Except ErrKind (List (Int × GVal)))
    (h : Heap) :
    List (String × HNode) → List (Int × List (String × GVal)) →
    Except ErrKind (List (Int × GVal))
  | [], result => .ok (result.map fun p => (p.1, GVal.record p.2))
  | (label, node) :: rest, result =>
    match recRead h node with
    | .error e =>
      if isNotFoundErr e then readCellLoop recRead h rest result else .error e
    | .ok res => readCellLoop recRead h rest (addChild label res result)

/-- `oidReader.readOID` over the heap: a leaf reads its OID, a tree address
reads its cell (`deviceClassOIDs.readOID`), with fuel for the heap
recursion. -/
def readNodeH (env : SNMPEnv) : Nat → Heap → HNode → Except ErrKind (List (Int × GVal))
  | 0, _, _ => .error (.other "recursion fuel exhausted")
  | fuel + 1, h, node =>
    match node with
    | HNode.leaf d =>
      match deviceClassOID.readOID env d with
      | .error e => .error e
      | .ok res => .ok (res.map fun p => (p.1, GVal.str p.2))
    | HNode.tree a => readCellLoop (readNodeH env fuel) h (cellOf h a) []

/-- A node whose tree address (if any) lies below `n`. -/
def nodeClosed (n : Nat) : HNode → Bool
  | HNode.leaf _ => true
  | HNode.tree a => a < n

/-- Every address stored anywhere in the heap refers to an allocated cell. -/
def heapClosed (h : Heap) : Bool :=
  h.cells.all fun cell => cell.all fun p => nodeClosed h.cells.length p.2

theorem cellOf_extends (h h2 : Heap) (a : Nat) (ha : a < h.cells.length)
    (hpre : h.cells <+: h2.cells) : cellOf h2 a = cellOf h a := by
  obtain ⟨t, ht⟩ := hpre
  unfold cellOf
  rw [← ht]
  rw [List.getD_eq_getD_get?, List.getD_eq_getD_get?, List.get?_append ha]

theorem mergeHLoop_extends (recMerge : Heap → Nat → Nat → Option (Nat × Heap))
    (hrec : ∀ h a b r h', recMerge h a b = some (r, h') → h.cells <+: h'.cells) :
    ∀ (ow : List (String × HNode)) (h : Heap) (acc c : List (String × HNode))
      (h' : Heap),
      mergeHLoop recMerge h acc ow = some (c, h') → h.cells <+: h'.cells := by
  intro ow
  induction ow with
  | nil =>
    intro h acc c h' hm
    simp only [mergeHLoop, Option.some.injEq, Prod.mk.injEq] at hm
    obtain ⟨h1, h2⟩ := hm
    subst h2
    exact List.prefix_refl _
  | cons p rest ih =>
    obtain ⟨k, v⟩ := p
    intro h acc c h' hm
    simp only [mergeHLoop] at hm
    cases hl : lookupK acc k with
    | none =>
      rw [hl] at hm
      exact ih _ _ _ _ hm
    | some n0 =>
      rw [hl] at hm
      cases n0 with
      | leaf d0 => exact ih _ _ _ _ hm
      | tree aOld =>
        cases v with
        | leaf d0 => exact ih _ _ _ _ hm
        | tree aOw =>
          have hm2 : (match recMerge h aOld aOw with
              | none => none
              | some (rr, h1) =>
                mergeHLoop recMerge h1 (upsertK acc k (HNode.tree rr)) rest)
              = some (c, h') := hm
          cases hr : recMerge h aOld aOw with
          | none => rw [hr] at hm2; exact absurd hm2 (by simp)
          | some rh =>
            obtain ⟨r, h1⟩ := rh
            rw [hr] at hm2
            exact (hrec h aOld aOw r h1 hr).trans (ih _ _ _ _ hm2)

theorem mergeH_extends : ∀ (fuel : Nat) (h : Heap) (a b r : Nat) (h' : Heap),
    mergeH fuel h a b = some (r, h') →
    h.cells <+: h'.cells ∧ h.cells.length ≤ r := by
  intro fuel
  induction fuel with
  | zero => intro h a b r h' hm; exact absurd hm (by simp [mergeH])
  | succ fuel ih =>
    intro h a b r h' hm
    simp only [mergeH] at hm
    cases hml : mergeHLoop (mergeH fuel) h (cellOf h a) (cellOf h b) with
    | none => rw [hml] at hm; exact absurd hm (by simp)
    | some ch1 =>
      obtain ⟨newCell, h1⟩ := ch1
      rw [hml] at hm
      have hpre1 : h.cells <+: h1.cells :=
        mergeHLoop_extends (mergeH fuel)
          (fun hh aa bb rr hh' hmm => (ih hh aa bb rr hh' hmm).1)
          _ h _ _ _ hml
      simp only [Option.some.injEq, Prod.mk.injEq] at hm
      obtain ⟨hr, hh'⟩ := hm
      subst hr
      subst hh'
      constructor
      · exact hpre1.trans ⟨[newCell], rfl⟩
      · exact hpre1.length_le

theorem readCellLoop_congr (recRead : Heap → HNode → Except ErrKind (List (Int × GVal)))
    (h h2 : Heap) :
    ∀ (cell : List (String × HNode)) (acc : List (Int × List (String × GVal))),
      (∀ p ∈ cell, recRead h2 p.2 = recRead h p.2) →
      readCellLoop recRead h2 cell acc = readCellLoop recRead h cell acc := by
  intro cell
  induction cell with
  | nil => intro acc _; rfl
  | cons p rest ih =>
    obtain ⟨label, node⟩ := p
    intro acc hs
    simp only [readCellLoop]
    rw [hs (label, node) (List.mem_cons_self _ _)]
    cases hr : recRead h node with
    | error e =>
      by_cases hnf : isNotFoundErr e = true <;>
        simp [hnf, ih _ (fun q hq => hs q (List.mem_cons_of_mem _ hq))]
    | ok res =>
      exact ih _ (fun q hq => hs q (List.mem_cons_of_mem _ hq))

theorem cellOf_closed (h : Heap) (hc : heapClosed h = true) (a : Nat)
    (ha : a < h.cells.length) :
    ∀ p ∈ cellOf h a, nodeClosed h.cells.length p.2 = true := by
  intro p hp
  have hcell : cellOf h a ∈ h.cells := by
    unfold cellOf
    rw [List.getD_eq_getElem _ _ ha]
    exact List.getElem_mem ha
  have h1 := (List.all_eq_true.mp hc) _ hcell
  exact List.all_eq_true.mp h1 p hp

theorem readNodeH_frame (env : SNMPEnv) :
    ∀ (fuel : Nat) (h h2 : Heap) (node : HNode),
      heapClosed h = true → h.cells <+: h2.cells →
      nodeClosed h.cells.length node = true →
      readNodeH env fuel h2 node = readNodeH env fuel h node := by
  intro fuel
  induction fuel with
  | zero => intro h h2 node _ _ _; rfl
  | succ fuel ih =>
    intro h h2 node hc hpre hn
    cases node with
    | leaf d => rfl
    | tree a =>
      have ha : a < h.cells.length := by simpa [nodeClosed] using hn
      simp only [readNodeH]
      rw [cellOf_extends h h2 a ha hpre]
      exact readCellLoop_congr (readNodeH env fuel) h h2 (cellOf h a) []
        (fun p hp => ih h h2 p.2 hc hpre (cellOf_closed h hc a ha p hp))

/-- C6: the heap-level merge of trees `a` and `b` allocates its result at a
fresh address (at or above the old allocation frontier), writes no
pre-existing cell, and consequently every read or resolution against `a`
alone or against `b` alone returns exactly the same result after the merge
as before it. -/
theorem mergeH_frame (fuel : Nat) (h : Heap) (a b : Nat)
    (hc : heapClosed h = true) (ha : a < h.cells.length) (hb : b < h.cells.length)
    (r : Nat) (h' : Heap) (hm : mergeH fuel h a b = some (r, h')) :
    h.cells.length ≤ r
    ∧ (∀ i, i < h.cells.length → cellOf h' i = cellOf h i)
    ∧ (∀ env f, readNodeH env f h' (HNode.tree a) = readNodeH env f h (HNode.tree a)
        ∧ readNodeH env f h' (HNode.tree b) = readNodeH env f h (HNode.tree b)) := by
  obtain ⟨hpre, hlen⟩ := mergeH_extends fuel h a b r h' hm
  refine ⟨hlen, ?_, ?_⟩
  · intro i hi
    exact cellOf_extends h h' i hi hpre
  · intro env f
    constructor
    · exact readNodeH_frame env f h h' (HNode.tree a) hc hpre (by simpa [nodeClosed] using ha)
    · exact readNodeH_frame env f h h' (HNode.tree b) hc hpre (by simpa [nodeClosed] using hb)

/-- Heap for the C6 witness: one allocated map `{"x" ↦ leaf}`. -/
def hW : Heap := ⟨[[("x", HNode.leaf { oid := ".w", operators := 0 })]]⟩

/-- The heap after merging cell 0 with itself: the old cell is untouched and
the result map is a fresh cell. -/
def hWafter : Heap :=
  ⟨[[("x", HNode.leaf { oid := ".w", operators := 0 })],
    [("x", HNode.leaf { oid := ".w", operators := 0 })]]⟩

/-- C6 witness: merging the sole allocated tree with itself allocates cell 1
and leaves reads of cell 0 unchanged. -/
theorem mergeH_frame_witness :
    hW.cells.length ≤ 1
    ∧ (∀ i, i < hW.cells.length → cellOf hWafter i = cellOf hW i)
    ∧ (∀ env f,
        readNodeH env f hWafter (HNode.tree 0) = readNodeH env f hW (HNode.tree 0)
        ∧ readNodeH env f hWafter (HNode.tree 0) = readNodeH env f hW (HNode.tree 0)) :=
  mergeH_frame 1 hW 0 0 (by decide) (by decide) (by decide) 1 hWafter (by decide)

/-! ## Interfaces, speed normalization, and the inheritance chain (C9) -/

/-- The SAP counters attached by the timos-SAS correlation pass
(`device.SAPInterface`, fields `Inbound`/`Outbound`, Go `*uint64`). -/
structure SAPInterface where
  inbound : Option Nat
  outbound : Option Nat
deriving DecidableEq

/-- The fields of `device.Interface` touched by the embedded code:
`IfIndex`, `IfSpeed`, `IfHighSpeed` (Go `*uint64`, modelled as `Option Nat`)
and the timos `SAP` extension. The remaining fields never influence the
embedded functions and are carried as the opaque payload `rest`. -/
structure Interface where
  ifIndex : Option Nat
  ifSpeed : Option Nat
  ifHighSpeed : Option Nat
  sap : Option SAPInterface
  rest : Nat
deriving DecidableEq

/-- `math.MaxUint32`. -/
def maxUint32 : Nat := 4294967295

/-- Embeds `normalizeInterfaces` (lines 1214-1222): an interface with both
speed fields set whose reported speed equals the 32-bit sentinel gets its
speed rewritten to the high-capacity counter times 1,000,000 (`uint64`
multiplication, hence mod 2^64). -/
def normalizeInterfaces (interfaces : List Interface) : List Interface :=
  interfaces.map fun interf =>
    match interf.ifSpeed, interf.ifHighSpeed with
    | some s, some hs =>
      if s = maxUint32 then
        { interf with ifSpeed := some (hs * 1000000 % 2 ^ 64) }
      else interf
    | _, _ => interf

/-- One level of the communicator inheritance chain as `GetInterfaces` sees
it: the device-class name (`GetDeviceClass`, compared by `isHead`), the
interfaces-component availability flag, and the outcomes of the class step
and of the optional code-communicator step. -/
structure CommLevel where
  name : String
  hasInterfacesComponent : Bool
  classInterfaces : StepResult (List Interface)
  codeInterfaces : Option (StepResult (List Interface))

/-- Embeds `networkDeviceCommunicator.GetInterfaces` (lines 834-849) along
the chain: `isHead` compares the level name against the head name (lines
1210-1212); a head level gates on the interfaces component; every level runs
the three-step chain, the inherited step being the next level run
recursively; and only levels passing the `isHead` test run
`normalizeInterfaces` on a successful result. -/
def getInterfacesChain (headName : String) : CommLevel → List CommLevel →
    StepResult (List Interface)
  | lvl, rest =>
    if lvl.name = headName ∧ lvl.hasInterfacesComponent = false then
      .error .componentNotFound
    else
      let fSub : Option (StepResult (List Interface)) :=
        match rest with
        | [] => none
        | l :: ls => some (getInterfacesChain headName l ls)
      match executeWithRecursion lvl.classInterfaces lvl.codeInterfaces fSub with
      | .error e => .error e
      | .ok res =>
        .ok (if lvl.name = headName then normalizeInterfaces res else res)

/-- `GetInterfaces` entry point: the topmost communicator is the head, so
the chain runs with its class name as the head name. -/
def GetInterfaces (head : CommLevel) (subs : List CommLevel) :
    StepResult (List Interface) :=
  getInterfacesChain head.name head subs

theorem getInterfacesChain_nil (headName : String) (lvl : CommLevel) :
    getInterfacesChain headName lvl [] =
      if lvl.name = headName ∧ lvl.hasInterfacesComponent = false then
        .error .componentNotFound
      else
        match executeWithRecursion lvl.classInterfaces lvl.codeInterfaces none with
        | .error e => .error e
        | .ok res =>
          .ok (if lvl.name = headName then normalizeInterfaces res else res) := rfl

theorem getInterfacesChain_cons (headName : String) (lvl l : CommLevel)
    (ls : List CommLevel) :
    getInterfacesChain headName lvl (l :: ls) =
      if lvl.name = headName ∧ lvl.hasInterfacesComponent = false then
        .error .componentNotFound
      else
        match executeWithRecursion lvl.classInterfaces lvl.codeInterfaces
            (some (getInterfacesChain headName l ls)) with
        | .error e => .error e
        | .ok res =>
          .ok (if lvl.name = headName then normalizeInterfaces res else res) := rfl

/-- C9: in a two-level chain whose head defines no interface property of its
own and whose sub level (with a different class name) resolves the raw list
`L`, the returned list is `normalizeInterfaces` applied to `L` exactly once
(only the head applies it); and the per-row rule: every row of `L` whose
speed is the 32-bit sentinel 2^32-1 and whose high-capacity counter is set
comes out with speed = counter * 1,000,000 (mod 2^64). -/
theorem getInterfaces_normalize_once (head sub : CommLevel) (L : List Interface)
    (hcomp : head.hasInterfacesComponent = true)
    (hclass : head.classInterfaces = .error .notImplemented)
    (hcode : head.codeInterfaces = none)
    (hname : ¬ sub.name = head.name)
    (hsubclass : sub.classInterfaces = .ok L) :
    GetInterfaces head [sub] = .ok (normalizeInterfaces L)
    ∧ (∀ k ifc h, L.get? k = some ifc → ifc.ifSpeed = some (2 ^ 32 - 1) →
        ifc.ifHighSpeed = some h →
        (normalizeInterfaces L).get? k
          = some { ifc with ifSpeed := some (h * 1000000 % 2 ^ 64) }) := by
  have hsent : (2 : Nat) ^ 32 - 1 = maxUint32 := by norm_num [maxUint32]
  constructor
  · have hsub : getInterfacesChain head.name sub [] = .ok L := by
      rw [getInterfacesChain_nil, if_neg (by simp [hname]), hsubclass]
      simp [executeWithRecursion, hname]
    show getInterfacesChain head.name head [sub] = .ok (normalizeInterfaces L)
    rw [getInterfacesChain_cons, if_neg (by simp [hcomp]), hsub, hclass, hcode]
    simp [executeWithRecursion, executeWithRecursion.executeWithRecursionTail,
      isNotImplementedErr]
  · intro k ifc h hL hsp hhs
    unfold normalizeInterfaces
    rw [List.get?_map, hL]
    rw [hsent] at hsp
    simp [hsp, hhs]

/-- Head level for the C9 witness: nothing resolved locally. -/
def headW9 : CommLevel :=
  { name := "head", hasInterfacesComponent := true,
    classInterfaces := .error .notImplemented, codeInterfaces := none }

/-- Sub level for the C9 witness: resolves one interface with sentinel speed
and high-capacity counter 10. -/
def subW9 : CommLevel :=
  { name := "sub", hasInterfacesComponent := true,
    classInterfaces := .ok [{ ifIndex := some 1, ifSpeed := some 4294967295,
                              ifHighSpeed := some 10, sap := none, rest := 0 }],
    codeInterfaces := none }

/-- C9 witness: across the two levels, the sentinel-speed interface with
high-capacity counter 10 comes out with speed 10,000,000, normalized once at
the head. -/
theorem getInterfaces_normalize_once_witness :
    GetInterfaces headW9 [subW9]
      = .ok (normalizeInterfaces [{ ifIndex := some 1, ifSpeed := some 4294967295,
                                    ifHighSpeed := some 10, sap := none, rest := 0 }])
    ∧ GetInterfaces headW9 [subW9]
      = .ok [{ ifIndex := some 1, ifSpeed := some 10000000,
               ifHighSpeed := some 10, sap := none, rest := 0 }] := by
  constructor
  · exact (getInterfaces_normalize_once headW9 subW9 _ rfl rfl rfl (by decide) rfl).1
  · decide

/-! ## timos-SAS secondary correlation (C10) -/

/-- The SAP description table prefix (timos-sas.go line 29). -/
def sapDescriptionsOID : String := ".1.3.6.1.4.1.6527.3.1.2.4.3.2.1.5"

/-- One digit of `strconv.ParseUint` with an explicit base. -/
def digitVal (base : Nat) (c : Char) : Option Nat :=
  let d :=
    if 48 ≤ c.toNat ∧ c.toNat ≤ 57 then some (c.toNat - 48)
    else if 97 ≤ c.toNat ∧ c.toNat ≤ 122 then some (c.toNat - 97 + 10)
    else if 65 ≤ c.toNat ∧ c.toNat ≤ 90 then some (c.toNat - 65 + 10)
    else none
  match d with
  | some dv => if dv < base then some dv else none
  | none => none

def parseDigitsAux (base : Nat) : List Char → Nat → Option Nat
  | [], acc => some acc
  | c :: rest, acc =>
    match digitVal base c with
    | none => none
    | some d => parseDigitsAux base rest (acc * base + d)

/-- `strconv.ParseUint(s, 0, 64)`: the base is inferred from the prefix
(`0b`/`0B` binary, `0o`/`0O` octal, `0x`/`0X` hex, a bare leading zero
octal, else decimal), no sign is accepted, and values not below 2^64 are an
error. Go additionally accepts underscores between digits in this inferred
mode; those forms are rejected here (no theorem below depends on an input
containing an underscore). -/
def parseUint0 (s : String) : Option Nat :=
  match s.data with
  | [] => none
  | c0 :: rest =>
    let baseDigits : Nat × List Char :=
      if c0 = '0' then
        match rest with
        | c1 :: rest2 =>
          if (c1 = 'b' ∨ c1 = 'B') ∧ rest2 ≠ [] then (2, rest2)
          else if (c1 = 'o' ∨ c1 = 'O') ∧ rest2 ≠ [] then (8, rest2)
          else if (c1 = 'x' ∨ c1 = 'X') ∧ rest2 ≠ [] then (16, rest2)
          else (8, c1 :: rest2)
        | [] => (8, [])
      else (10, c0 :: rest)
    match parseDigitsAux baseDigits.1 baseDigits.2 0 with
    | none => none
    | some n => if n < 2 ^ 64 then some n else none

/-- Modelled from the spec: `getCounterFromSnmpGet` is not part of the given
source tree; per the spec the correlation pass performs two additional
single-value lookups through the remote query client
(`get(ctx, exactPath) -> rawValue, failure`). Modelled as the environment's
single-value get returning the counter. -/
def getCounterFromSnmpGet (env : SNMPEnv) (oid : String) : Except ErrKind Nat :=
  env.snmpGet oid

/-- Embeds `getInterfaceBySubIndex` (timos-sas.go lines 77-84): the slice
position of the first interface whose `IfIndex` equals the given sub-index;
dereferencing a nil `IfIndex` is a Go runtime panic; no match is an error. -/
def getInterfaceBySubIndexAux (subIndex : Nat) (index : Nat) :
    List Interface → Except ErrKind Nat
  | [] => .error (.other "no interface with given index found")
  | iface :: rest =>
    match iface.ifIndex with
    | none => .error (.panicked "nil IfIndex dereference")
    | some n =>
      if n = subIndex then .ok index
      else getInterfaceBySubIndexAux subIndex (index + 1) rest

def getInterfaceBySubIndex (subIndex : Nat) (interfaces : List Interface) :
    Except ErrKind Nat :=
  getInterfaceBySubIndexAux subIndex 0 interfaces

/-- The inbound and outbound counter paths (timos-sas.go lines 54, 60). -/
def inboundOIDFor (s1 physIndex subID : String) : String :=
  ".1.3.6.1.4.1.6527.6.2.2.2.8.1.1.1.4." ++ s1 ++ "." ++ physIndex ++ "." ++ subID

def outboundOIDFor (s1 physIndex subID : String) : String :=
  ".1.3.6.1.4.1.6527.6.2.2.2.8.1.1.1.6." ++ s1 ++ "." ++ physIndex ++ "." ++ subID

/-- `interfaces[i].SAP = &device.SAPInterface{...}` (timos-sas.go lines
66-69); `i` is in bounds by construction. -/
def setSAP (interfaces : List Interface) (i : Nat) (inbound outbound : Nat) :
    List Interface :=
  match interfaces.get? i with
  | some interf =>
    interfaces.set i
      { interf with sap := some { inbound := some inbound, outbound := some outbound } }
  | none => interfaces

/-- The response loop of `timosSASCommunicator.GetInterfaces` (timos-sas.go
lines 35-70): split the path suffix after the table prefix, take its
components 2 and 3 (a too-short suffix is a Go runtime panic), parse their
concatenation as the composite sub-index, locate the matching interface row,
fetch both counters, and attach them to that row. Error wrapping preserves
the kind. -/
def timosLoop (env : SNMPEnv) : List SNMPResponse → List Interface →
    Except ErrKind (List Interface)
  | [], interfaces => .ok interfaces
  | response :: rest, interfaces =>
    let suffix := goSplitDots (goTrimPre response.oid sapDescriptionsOID)
    match suffix.get? 2, suffix.get? 3, suffix.get? 1 with
    | some physIndex, some subID, some s1 =>
      match parseUint0 (physIndex ++ subID) with
      | none => .error (.other "could not get index from strings")
      | some subIndex =>
        match getInterfaceBySubIndex subIndex interfaces with
        | .error e => .error e
        | .ok i =>
          match getCounterFromSnmpGet env (inboundOIDFor s1 physIndex subID) with
          | .error e => .error e
          | .ok inbound =>
            match getCounterFromSnmpGet env (outboundOIDFor s1 physIndex subID) with
            | .error e => .error e
            | .ok outbound =>
              timosLoop env rest (setSAP interfaces i inbound outbound)
    | _, _, _ => .error (.panicked "index out of range")

/-- Embeds `timosSASCommunicator.GetInterfaces` (timos-sas.go lines 17-73):
resolve the inherited interface list (`subResult` is the outcome of
`c.sub.GetInterfaces(ctx)`), check the connection, walk the SAP description
table, and correlate every row. -/
def timosGetInterfaces (env : SNMPEnv) (subResult : StepResult (List Interface)) :
    StepResult (List Interface) :=
  match subResult with
  | .error e => .error e
  | .ok interfaces =>
    if !env.hasConnection then .error (.other "no device connection available")
    else
      match env.walk sapDescriptionsOID with
      | .error e => .error e
      | .ok sapDescriptions => timosLoop env sapDescriptions interfaces

theorem timosLoop_cons (env : SNMPEnv) (response : SNMPResponse)
    (rest : List SNMPResponse) (interfaces : List Interface) (s1 s2 s3 : String)
    (hsfx : goSplitDots (goTrimPre response.oid sapDescriptionsOID)
      = ["", s1, s2, s3]) :
    timosLoop env (response :: rest) interfaces =
      match parseUint0 (s2 ++ s3) with
      | none => .error (.other "could not get index from strings")
      | some subIndex =>
        match getInterfaceBySubIndex subIndex interfaces with
        | .error e => .error e
        | .ok i =>
          match getCounterFromSnmpGet env (inboundOIDFor s1 s2 s3) with
          | .error e => .error e
          | .ok inbound =>
            match getCounterFromSnmpGet env (outboundOIDFor s1 s2 s3) with
            | .error e => .error e
            | .ok outbound => timosLoop env rest (setSAP interfaces i inbound outbound) := by
  simp only [timosLoop]
  rw [hsfx]
  rfl

theorem getInterfaceBySubIndexAux_not_found (subIndex : Nat) :
    ∀ (interfaces : List Interface) (start : Nat),
      (∀ ifc ∈ interfaces, ∃ n, ifc.ifIndex = some n) →
      (∀ ifc ∈ interfaces, ifc.ifIndex ≠ some subIndex) →
      getInterfaceBySubIndexAux subIndex start interfaces
        = .error (.other "no interface with given index found") := by
  intro interfaces
  induction interfaces with
  | nil => intro start _ _; rfl
  | cons iface rest ih =>
    intro start hall hnone
    obtain ⟨n, hn⟩ := hall iface (List.mem_cons_self _ _)
    simp only [getInterfaceBySubIndexAux, hn]
    have hns : ¬ n = subIndex :=
      fun hh => hnone iface (List.mem_cons_self _ _) (hh ▸ hn)
    rw [if_neg hns]
    exact ih (start + 1) (fun i hi => hall i (List.mem_cons_of_mem _ hi))
      (fun i hi => hnone i (List.mem_cons_of_mem _ hi))

theorem setSAP_get (interfaces : List Interface) (i : Nat) (inb outb : Nat)
    (ifc : Interface) (h : interfaces.get? i = some ifc) :
    (setSAP interfaces i inb outb).get? i
      = some { ifc with sap := some { inbound := some inb, outbound := some outb } } := by
  unfold setSAP
  rw [h]
  rw [List.get?_set_eq, h]
  rfl

theorem timosGetInterfaces_run (env : SNMPEnv) (interfaces : List Interface)
    (rs : List SNMPResponse) (hconn : env.hasConnection = true)
    (hw : env.walk sapDescriptionsOID = .ok rs) :
    timosGetInterfaces env (.ok interfaces) = timosLoop env rs interfaces := by
  simp [timosGetInterfaces, hconn, hw]

/-- C10 (amended): for a secondary-table row whose path suffix after the
table prefix has the table's three index segments (so it splits as
`["", s1, s2, s3]`), the composite sub-index is the concatenation of the
second and third suffix segments `s2 ++ s3` parsed as an unsigned integer —
the trailing two segments exactly when the suffix has this three-segment
shape; it must match the IfIndex of an existing interface row exactly: if no
row matches, the whole interface fetch fails with a hard error rather than
silently omitting the row; if either per-row counter sub-lookup fails (in
particular for any reason other than not-found), the whole fetch fails with
that error; and on success the matched row is extended with the inbound and
outbound counters. -/
theorem timosGetInterfaces_correlation (env : SNMPEnv)
    (response : SNMPResponse) (rest : List SNMPResponse)
    (interfaces : List Interface) (s1 s2 s3 : String) (idx : Nat)
    (hconn : env.hasConnection = true)
    (hw : env.walk sapDescriptionsOID = .ok (response :: rest))
    (hsfx : goSplitDots (goTrimPre response.oid sapDescriptionsOID)
      = ["", s1, s2, s3])
    (hparse : parseUint0 (s2 ++ s3) = some idx) :
    ((∀ ifc ∈ interfaces, ∃ n, ifc.ifIndex = some n) →
      (∀ ifc ∈ interfaces, ifc.ifIndex ≠ some idx) →
      timosGetInterfaces env (.ok interfaces)
        = .error (.other "no interface with given index found"))
    ∧ (∀ i e, getInterfaceBySubIndex idx interfaces = .ok i →
        getCounterFromSnmpGet env (inboundOIDFor s1 s2 s3) = .error e →
        timosGetInterfaces env (.ok interfaces) = .error e)
    ∧ (∀ i inb e, getInterfaceBySubIndex idx interfaces = .ok i →
        getCounterFromSnmpGet env (inboundOIDFor s1 s2 s3) = .ok inb →
        getCounterFromSnmpGet env (outboundOIDFor s1 s2 s3) = .error e →
        timosGetInterfaces env (.ok interfaces) = .error e)
    ∧ (∀ i inb outb ifc, getInterfaceBySubIndex idx interfaces = .ok i →
        getCounterFromSnmpGet env (inboundOIDFor s1 s2 s3) = .ok inb →
        getCounterFromSnmpGet env (outboundOIDFor s1 s2 s3) = .ok outb →
        interfaces.get? i = some ifc →
        timosGetInterfaces env (.ok interfaces)
          = timosLoop env rest (setSAP interfaces i inb outb)
        ∧ (setSAP interfaces i inb outb).get? i
          = some { ifc with sap := some { inbound := some inb,
                                          outbound := some outb } }) := by
  have hrun : timosGetInterfaces env (.ok interfaces)
      = timosLoop env (response :: rest) interfaces :=
    timosGetInterfaces_run env interfaces _ hconn hw
  have hstep := timosLoop_cons env response rest interfaces s1 s2 s3 hsfx
  rw [hparse] at hstep
  have hstep2 : timosLoop env (response :: rest) interfaces =
      match getInterfaceBySubIndex idx interfaces with
      | .error e => .error e
      | .ok i =>
        match getCounterFromSnmpGet env (inboundOIDFor s1 s2 s3) with
        | .error e => .error e
        | .ok inbound =>
          match getCounterFromSnmpGet env (outboundOIDFor s1 s2 s3) with
          | .error e => .error e
          | .ok outbound =>
            timosLoop env rest (setSAP interfaces i inbound outbound) := hstep
  refine ⟨?_, ?_, ?_, ?_⟩
  · intro hall hnone
    have hnf := getInterfaceBySubIndexAux_not_found idx interfaces 0 hall hnone
    simp only [hrun, hstep2, getInterfaceBySubIndex, hnf]
  · intro i e hi hin
    simp only [hrun, hstep2, hi, hin]
  · intro i inb e hi hin hout
    simp only [hrun, hstep2, hi, hin, hout]
  · intro i inb outb ifc hi hin hout hifc
    refine ⟨?_, setSAP_get interfaces i inb outb ifc hifc⟩
    simp only [hrun, hstep2, hi, hin, hout]

/-- An interface list entry with IfIndex 27, for the C10 counterexample. -/
def ifc27 : Interface :=
  { ifIndex := some 27, ifSpeed := none, ifHighSpeed := none, sap := none, rest := 0 }

/-- Environment for the C10 counterexample: the SAP walk returns one row
whose path suffix has four numeric segments ".1.2.7.3"; counters read 5. -/
def envC10 : SNMPEnv :=
  { hasConnection := true
    walk := fun o =>
      if o = sapDescriptionsOID then
        .ok [{ oid := sapDescriptionsOID ++ ".1.2.7.3", raw := .ok "" }]
      else .error .notFound
    applyOps := fun _ s => .ok s
    snmpGet := fun _ => .ok 5 }

/-- C10 counterexample: a row whose path ends in ".7.3" — the two trailing
numeric segments concatenating to "73" — is correlated through the suffix
segments at positions 2 and 3 instead ("2" and "7", giving 27): although no
interface with IfIndex 73 exists, the fetch succeeds and extends the row
with IfIndex 27, where the claim demands a failure. -/
theorem timos_trailing_segments_counterexample :
    parseUint0 ("7" ++ "3") = some 73
    ∧ (∀ ifc ∈ [ifc27], ifc.ifIndex ≠ some 73)
    ∧ timosGetInterfaces envC10 (.ok [ifc27])
        = .ok [{ ifc27 with sap := some { inbound := some 5, outbound := some 5 } }] := by
  refine ⟨by decide, by decide, by decide⟩

/-- An interface list entry with IfIndex 73, for the C10 witness. -/
def ifc73 : Interface :=
  { ifIndex := some 73, ifSpeed := none, ifHighSpeed := none, sap := none, rest := 0 }

/-- Environment for the C10 witness: one SAP row with the three-segment
suffix ".1.7.3"; counters read 9. -/
def envW10 : SNMPEnv :=
  { hasConnection := true
    walk := fun o =>
      if o = sapDescriptionsOID then
        .ok [{ oid := sapDescriptionsOID ++ ".1.7.3", raw := .ok "" }]
      else .error .notFound
    applyOps := fun _ s => .ok s
    snmpGet := fun _ => .ok 9 }

/-- C10 witness: the row with suffix ".1.7.3" yields composite sub-index 73,
matches the interface with IfIndex 73, and that row is extended with both
counters. -/
theorem timosGetInterfaces_correlation_witness :
    timosGetInterfaces envW10 (.ok [ifc73])
      = timosLoop envW10 [] (setSAP [ifc73] 0 9 9)
    ∧ (setSAP [ifc73] 0 9 9).get? 0
      = some { ifc73 with sap := some { inbound := some 9, outbound := some 9 } } :=
  (timosGetInterfaces_correlation envW10
      { oid := sapDescriptionsOID ++ ".1.7.3", raw := .ok "" } [] [ifc73]
      "1" "7" "3" 73 rfl (by decide) (by decide) (by decide)).2.2.2
    0 9 9 ifc73 (by decide) rfl rfl rfl

end Thola
